import Mathlib

/-!
Shallow embedding of the autotuner core (parameter model, exhaustive
iterator, genetic operators, ranking, evaluation pipeline, compile driver,
C-ABI dispatch tables, checkpoint serialization), with theorems settling
the specification claims.

Conventions of the embedding:
* Rust `i32` is modelled as `ℤ`; where wrap-around matters it is made
  explicit with `wrap32` (two's-complement reduction into `[-2^31, 2^31)`).
* Rust `usize` is modelled as `ℕ`.
* `f64` is modelled as `ℚ` extended with two infinities (`F`), plus a
  separate NaN marker (`F64`) where NaN can be produced by foreign code.
  Rounding of `f64` arithmetic is idealized as exact; every theorem whose
  truth could be affected by rounding says so in its documentation.
* Interned strings (`Arc<str>`) are modelled as `String`; equality of
  interned handles is string equality.
* An `Individual` (`Instance` in older sources) is identified with its
  ordered parameter map: the SHA-256 `id` is a function of that map and is
  treated as injective on it, which is the identity design of the program.
* `BTreeMap` iteration is modelled by an ordered association list.
-/

namespace Autotuner

/-! ## Parameter model (src/parameter.rs) -/

/-- `Value`: tagged union with variants `Integer(i32)`, `Switch(bool)`,
`Index(usize)` (src/parameter.rs). -/
inductive Value : Type where
  | integer (n : ℤ)
  | switch (b : Bool)
  | index (i : ℕ)
deriving DecidableEq

/-- `IntegerSpace`: `Sequence(i32, i32)` or `Candidates(Vec<i32>)`
(src/parameter.rs). -/
inductive IntegerSpace : Type where
  | sequence (lo hi : ℤ)
  | candidates (cs : List ℤ)
deriving DecidableEq

/-- `Specification`: `Integer { transformer, space }`, `Switch`, or
`Keyword(KeywordSpace)` (src/parameter.rs). The transformer is a format
string; `KeywordSpace` wraps `Vec<String>`. -/
inductive Specification : Type where
  | integer (transformer : Option String) (space : IntegerSpace)
  | switch
  | keyword (ks : List String)
deriving DecidableEq

namespace Specification

/-- `Space::first` (named `default` in some revisions): sequence start,
index 0, switch false (src/parameter.rs, each `impl Space`). -/
def first : Specification → Value
  | integer _ (.sequence lo _) => .integer lo
  | integer _ (.candidates _) => .index 0
  | switch => .switch false
  | keyword _ => .index 0

/-- `Space::next(current)`: the lexicographic successor inside the space,
or none at the end (src/parameter.rs). The source `unreachable!`s on a
mismatched (space, value) pair; the embedding returns `none` there, and
every theorem stays inside the well-typed region. -/
def next : Specification → Value → Option Value
  | integer _ (.sequence _ hi), .integer n =>
      if n < hi then some (.integer (n + 1)) else none
  | integer _ (.candidates cs), .index i =>
      if i + 1 < cs.length then some (.index (i + 1)) else none
  | switch, .switch b =>
      if b = false then some (.switch true) else none
  | keyword ks, .index i =>
      if i + 1 < ks.length then some (.index (i + 1)) else none
  | _, _ => none

/-- `Space::len` (src/parameter.rs): `(end - start + 1) as usize`,
candidate/keyword list length, 2 for switch. The `as usize` cast of a
negative difference is excluded by the well-formedness precondition. -/
def spaceLen : Specification → ℕ
  | integer _ (.sequence lo hi) => (hi - lo + 1).toNat
  | integer _ (.candidates cs) => cs.length
  | switch => 2
  | keyword ks => ks.length

/-- The space as the list of its elements in `first`/`next` order. This is
the reference enumeration the iterator theorems compare against. -/
def spaceList : Specification → List Value
  | integer _ (.sequence lo hi) =>
      (List.range (hi - lo + 1).toNat).map (fun k : ℕ => .integer (lo + (k : ℤ)))
  | integer _ (.candidates cs) => (List.range cs.length).map .index
  | switch => [.switch false, .switch true]
  | keyword ks => (List.range ks.length).map .index

/-- Well-formedness of a specification: its space is non-empty, exactly the
precondition of the exhaustive-totality claim (`Sequence` with `lo ≤ hi`,
non-empty `Candidates` and `Keyword` lists). -/
def WF : Specification → Prop
  | integer _ (.sequence lo hi) => lo ≤ hi
  | integer _ (.candidates cs) => cs ≠ []
  | switch => True
  | keyword ks => ks ≠ []

instance : DecidablePred WF := fun s =>
  match s with
  | integer _ (.sequence lo hi) => inferInstanceAs (Decidable (lo ≤ hi))
  | integer _ (.candidates cs) => inferInstanceAs (Decidable (cs ≠ []))
  | switch => inferInstanceAs (Decidable True)
  | keyword ks => inferInstanceAs (Decidable (ks ≠ []))

end Specification

/-- Membership of a `Value` in the space of its `Specification`: the
domain invariant of the data model (Integer-Sequence values lie in
`[lo, hi]`, Index values in `[0, len)`, switch values are booleans). -/
def Value.inSpace : Specification → Value → Prop
  | .integer _ (.sequence lo hi), .integer n => lo ≤ n ∧ n ≤ hi
  | .integer _ (.candidates cs), .index i => i < cs.length
  | .switch, .switch _ => True
  | .keyword ks, .index i => i < ks.length
  | _, _ => False

instance (s : Specification) (v : Value) : Decidable (Value.inSpace s v) :=
  match s, v with
  | .integer _ (.sequence lo hi), .integer n => inferInstanceAs (Decidable (lo ≤ n ∧ n ≤ hi))
  | .integer _ (.sequence _ _), .switch _ => inferInstanceAs (Decidable False)
  | .integer _ (.sequence _ _), .index _ => inferInstanceAs (Decidable False)
  | .integer _ (.candidates cs), .index i => inferInstanceAs (Decidable (i < cs.length))
  | .integer _ (.candidates _), .integer _ => inferInstanceAs (Decidable False)
  | .integer _ (.candidates _), .switch _ => inferInstanceAs (Decidable False)
  | .switch, .switch _ => inferInstanceAs (Decidable True)
  | .switch, .integer _ => inferInstanceAs (Decidable False)
  | .switch, .index _ => inferInstanceAs (Decidable False)
  | .keyword ks, .index i => inferInstanceAs (Decidable (i < ks.length))
  | .keyword _, .integer _ => inferInstanceAs (Decidable False)
  | .keyword _, .switch _ => inferInstanceAs (Decidable False)

/-- `Profile`: ordered name → specification map (`BTreeMap` in
src/parameter.rs), modelled as its association list in iteration order. -/
structure Profile : Type where
  entries : List (String × Specification)
deriving DecidableEq

namespace Profile

/-- `Profile::len` (src/parameter.rs lines 307–314): starts at 1 and
multiplies each specification's space length, in iteration order. -/
def len (p : Profile) : ℕ :=
  p.entries.foldl (fun size e => size * e.2.spaceLen) 1

/-- All specifications of a profile are well-formed (spaces non-empty). -/
def WF (p : Profile) : Prop :=
  ∀ e ∈ p.entries, e.2.WF

instance (p : Profile) : Decidable p.WF :=
  inferInstanceAs (Decidable (∀ e ∈ p.entries, e.2.WF))

end Profile

/-- `Individual` (`Instance`): identified with its ordered parameter map;
the SHA-256 `id` is a function of this map (src/parameter.rs), so equality
of individuals is equality of the maps. -/
structure Individual : Type where
  parameters : List (String × Value)
deriving DecidableEq

/-! ## Exhaustive iterator state (src/strategies/exhaustive/state.rs) -/

/-- `State`: ordered name list, current values, specifications, done flag. -/
structure State : Type where
  names : List String
  values : List Value
  specifications : List Specification
  done : Bool
deriving DecidableEq

/-- The odometer step of `State::next` (src/strategies/exhaustive/state.rs
lines 29–41): the source walks indices right-to-left, increments the first
(i.e. rightmost) value whose space has a successor and resets every value to
its right to `first()`. Trying the tail before the head is the same search
order expressed structurally. Returns `none` when no index can increment. -/
def increment : List Specification → List Value → Option (List Value)
  | [], [] => none
  | spec :: specs, v :: vs =>
      match increment specs vs with
      | some vs' => some (v :: vs')
      | none =>
          match spec.next v with
          | some v' => some (v' :: specs.map Specification.first)
          | none => none
  | _, _ => none

/-- `State::next` (src/strategies/exhaustive/state.rs): when not done,
snapshot the current values as an `Individual`; then either advance the
odometer or mark done, returning the snapshot either way. -/
def State.next (s : State) : Option (Individual × State) :=
  if s.done then none
  else
    let individual : Individual := ⟨s.names.zip s.values⟩
    match increment s.specifications s.values with
    | some vs => some (individual, { s with values := vs })
    | none => some (individual, { s with done := true })

/-- Fuel-bounded iteration of `State::next`, collecting the yielded
individuals. With fuel at least the number of remaining combinations this
is the entire remaining stream (the totality theorem shows the stream is
exhausted within `Profile.len` steps). -/
def State.run : ℕ → State → List Individual
  | 0, _ => []
  | fuel + 1, s =>
      match s.next with
      | none => []
      | some (ind, s') => ind :: State.run fuel s'

/-- Iterate `State.next` `k` times, keeping only the state (the state
reached after `k` yields). -/
def State.advance : ℕ → State → State
  | 0, s => s
  | k + 1, s =>
      match s.next with
      | none => s
      | some (_, s') => State.advance k s'

/-- `Profile::iter` (src/strategies/exhaustive/mod.rs): names are the map
keys in order, specifications looked up per name, values initialized with
each space's `first()`, done = false. -/
def Profile.iter (p : Profile) : State :=
  { names := p.entries.map Prod.fst
    values := (p.entries.map Prod.snd).map Specification.first
    specifications := p.entries.map Prod.snd
    done := false }

/-- The reference enumeration: Cartesian product of the space lists in
lexicographic order, last position fastest. -/
def lexProduct : List Specification → List (List Value)
  | [] => [[]]
  | s :: ss => s.spaceList.flatMap (fun v => (lexProduct ss).map (v :: ·))

/-- `Linked f l`: each element of `l` maps to its successor under `f`
(no condition on the last element). -/
def Linked (f : α → Option α) : List α → Prop
  | [] => True
  | [_] => True
  | x :: y :: rest => f x = some y ∧ Linked f (y :: rest)

/-- Value-level counterpart of `State.run`: emit the current values, then
follow `increment` while it succeeds, bounded by fuel. -/
def emitValues (specs : List Specification) : ℕ → List Value → List (List Value)
  | 0, _ => []
  | fuel + 1, vs =>
      vs ::
        match increment specs vs with
        | some vs' => emitValues specs fuel vs'
        | none => []

/-! ## Fitness values (f64 model) -/

/-- Non-NaN `f64` values: a rational (exact-arithmetic idealization of the
finite doubles) or one of the two infinities. NaN is tracked separately by
`F64` where foreign code can produce it. -/
inductive F : Type where
  | negInf
  | fin (q : ℚ)
  | inf
deriving DecidableEq

namespace F

/-- `f64::total_cmp`-induced order restricted to non-NaN values:
`-∞ < finite (by value) < +∞`. -/
def le : F → F → Bool
  | negInf, _ => true
  | fin _, negInf => false
  | fin a, fin b => decide (a ≤ b)
  | fin _, inf => true
  | inf, inf => true
  | inf, _ => false

/-- `f64::max` on non-NaN inputs. -/
def max (a b : F) : F := if le a b then b else a

/-- `f64::min` on non-NaN inputs. -/
def min (a b : F) : F := if le a b then a else b

end F

/-- `f64` as visible to the host after a foreign call: non-NaN or NaN. -/
inductive F64 : Type where
  | nan
  | val (x : F)
deriving DecidableEq

/-- `Criterion` (src/criterion.rs): Maximum, Minimum, Median. -/
inductive Criterion : Type where
  | maximum
  | minimum
  | median
deriving DecidableEq

namespace Criterion

/-- `Criterion::invalid` (src/criterion.rs lines 42–48): `-∞` for Maximum,
`+∞` for Minimum and Median. -/
def invalid : Criterion → F
  | maximum => .negInf
  | minimum => .inf
  | median => .inf

/-- `Criterion::representative` (src/criterion.rs lines 50–59): fold of
`f64::max` from `-∞`, fold of `f64::min` from `+∞`, or the middle element
of the `total_cmp`-sorted vector (`values[len / 2]`, which panics — `none`
here — on an empty vector). -/
def representative : Criterion → List F → Option F
  | maximum, values => some (values.foldl (fun a b => F.max a b) F.negInf)
  | minimum, values => some (values.foldl (fun a b => F.min a b) F.inf)
  | median, values => (values.mergeSort F.le).get? (values.length / 2)

end Criterion

/-- `Direction` (src/direction.rs): minimize or maximize. -/
inductive Direction : Type where
  | minimize
  | maximize
deriving DecidableEq

/-- `ExecutionResult` (src/strategies/genetic/execution_result.rs): a
reference-counted individual paired with its fitness; `Ord` compares the
fitness by `total_cmp` only. The individual handle is opaque to every
comparison, so it is modelled by a numeric tag. -/
structure ExecutionResult : Type where
  individual : ℕ
  fitness : F
deriving DecidableEq

/-- The `Ord` of `ExecutionResult`: `self.1.total_cmp(&other.1)`. -/
def ExecutionResult.le (a b : ExecutionResult) : Bool :=
  F.le a.fitness b.fitness

/-! ## Rust `std::collections::BinaryHeap`, by its backing vector

`Heap` (src/strategies/heap.rs) wraps `BinaryHeap`; the ranking claims
depend on the element order `iter`/`into_iter` expose, which is the raw
backing-vector order, so the backing vector is modelled exactly: `push`
appends and sifts up (the hole optimization is the same sequence of
swaps); `pop` swaps the last element into the root and sifts down to the
bottom, then back up, as in the Rust implementation. -/

/-- Swap two positions of the backing vector (out-of-range: unchanged). -/
def swapList (l : List α) (i j : ℕ) : List α :=
  match l.get? i, l.get? j with
  | some a, some b => (l.set i b).set j a
  | _, _ => l

/-- `BinaryHeap::sift_up` from position `pos` (max-heap by `le`): while the
element is greater than its parent, swap upward. The fuel is the starting
position, which bounds the number of parent steps. -/
def siftUpFuel (le : α → α → Bool) : ℕ → List α → ℕ → List α
  | 0, data, _ => data
  | fuel + 1, data, pos =>
      if pos = 0 then data
      else
        let parent := (pos - 1) / 2
        match data.get? pos, data.get? parent with
        | some x, some p =>
            if le x p then data
            else siftUpFuel le fuel (swapList data pos parent) parent
        | _, _ => data

/-- `BinaryHeap::sift_up` (fuel instantiated: a start position `pos` needs
at most `pos` parent steps). -/
def siftUp (le : α → α → Bool) (data : List α) (pos : ℕ) : List α :=
  siftUpFuel le pos data pos

/-- `BinaryHeap::push`: append, then sift up from the last position. -/
def heapPush (le : α → α → Bool) (data : List α) (x : α) : List α :=
  siftUp le (data ++ [x]) data.length

/-- The hole walk of `BinaryHeap::sift_down_to_bottom`: descend along the
greater child to the bottom, returning the final array and hole position.
Fuel is the list length (the hole position strictly increases). -/
def siftDownPath (le : α → α → Bool) : ℕ → List α → ℕ → List α × ℕ
  | 0, data, pos => (data, pos)
  | fuel + 1, data, pos =>
      let endLen := data.length
      let child := 2 * pos + 1
      if child + 2 ≤ endLen then
        let child' :=
          match data.get? child, data.get? (child + 1) with
          | some c, some c' => if le c c' then child + 1 else child
          | _, _ => child
        siftDownPath le fuel (swapList data pos child') child'
      else if child + 1 = endLen then
        (swapList data pos child, child)
      else (data, pos)

/-- `BinaryHeap::pop`: remove the last element, swap it into the root,
sift down to the bottom and back up. Returns the removed maximum and the
new backing vector. -/
def heapPop (le : α → α → Bool) (data : List α) : Option (α × List α) :=
  match data.getLast? with
  | none => none
  | some last =>
      let rest := data.dropLast
      match rest with
      | [] => some (last, [])
      | root :: _ =>
          let rest' := rest.set 0 last
          let walked := siftDownPath le rest'.length rest' 0
          some (root, siftUp le walked.1 walked.2)

/-- `Heap<T>` (src/strategies/heap.rs): `Min` holds `BinaryHeap<Reverse<T>>`
(comparator flipped), `Max` holds `BinaryHeap<T>`. The stored elements are
kept unwrapped; `Min` operations flip the comparator exactly as `Reverse`
does. -/
inductive RankHeap (α : Type) : Type where
  | min (data : List α)
  | max (data : List α)
deriving DecidableEq

namespace RankHeap

/-- `Heap::push`. -/
def push (le : α → α → Bool) : RankHeap α → α → RankHeap α
  | .min data, x => .min (heapPush (fun a b => le b a) data x)
  | .max data, x => .max (heapPush le data x)

/-- `Heap::pop`. -/
def pop (le : α → α → Bool) : RankHeap α → Option (α × RankHeap α)
  | .min data =>
      (heapPop (fun a b => le b a) data).map (fun r => (r.1, .min r.2))
  | .max data => (heapPop le data).map (fun r => (r.1, .max r.2))

/-- `Heap::len`. -/
def len : RankHeap α → ℕ
  | .min data => data.length
  | .max data => data.length

/-- `Heap::iter` / `Heap::into_iter`: `BinaryHeap::iter` visits the backing
vector in its underlying (arbitrary, heap-shaped) order; the `Min` variant
unwraps `Reverse` in place. -/
def toListIter : RankHeap α → List α
  | .min data => data
  | .max data => data

end RankHeap

/-- `Iterator::min` over `ExecutionResult` references: fold keeping the
later element on ties (Rust documents that the last of equal minima is
returned). -/
def iterMin (le : α → α → Bool) : List α → Option α
  | [] => none
  | x :: xs => some (xs.foldl (fun acc y => if le y acc then y else acc) x)

/-! ## `Ranking` (src/strategies/genetic/output.rs; the exhaustive variant
in src/strategies/exhaustive/output.rs has the identical push and
`into_json`) -/

structure Ranking : Type where
  heap : RankHeap ExecutionResult
  capacity : ℕ
deriving DecidableEq

namespace Ranking

/-- `Ranking::new`: Minimize keeps a max-heap, Maximize a min-heap. -/
def new (direction : Direction) (capacity : ℕ) : Ranking :=
  { heap :=
      match direction with
      | .minimize => .max []
      | .maximize => .min []
    capacity }

/-- `Ranking::push` (src/strategies/genetic/output.rs lines 51–57): push,
then pop the worst if the size exceeds the capacity. -/
def push (r : Ranking) (individual : ℕ) (fitness : F) : Ranking :=
  let heap := r.heap.push ExecutionResult.le ⟨individual, fitness⟩
  if r.capacity < heap.len then
    match heap.pop ExecutionResult.le with
    | some p => { r with heap := p.2 }
    | none => { r with heap := heap }
  else { r with heap := heap }

/-- `Ranking::best` (src/strategies/genetic/output.rs lines 59–62):
`self.heap.iter().min()` — the minimum by `ExecutionResult`'s fitness
order, regardless of the ranking's direction. -/
def best (r : Ranking) : Option ExecutionResult :=
  iterMin ExecutionResult.le r.heap.toListIter

/-- `Ranking::into_json` (src/strategies/genetic/output.rs lines 64–72):
collect `heap.into_iter()` (backing-vector order), log each entry in
place, and reverse. The emitted order is modelled by the `ExecutionResult`
list; `ExecutionLog` rendering maps each entry in place. -/
def intoJsonOrder (r : Ranking) : List ExecutionResult :=
  r.heap.toListIter.reverse

end Ranking

/-! ## Genetic crossover (src/strategies/genetic/mod.rs) -/

/-- Two's-complement reduction of an `i32` arithmetic result into
`[-2^31, 2^31)`: release-mode Rust wraps on overflow. -/
def wrap32 (n : ℤ) : ℤ :=
  (n + 2147483648) % 4294967296 - 2147483648

/-- Per-space crossover (src/strategies/genetic/mod.rs lines 38–53, 82–94,
107–119); `r` feeds the `rand` calls taken when the parents differ
(`random_range(0..len)` becomes `r % len`, `random::<bool>()` becomes
`r % 2 = 1`). Integer `Sequence` computes `(a + b) / 2` in `i32`
arithmetic: wrapping addition, then truncating division. A mismatched
(space, value) pairing is `unreachable!` in the source; the embedding
returns the first value there and every theorem stays well-typed. -/
def Specification.crossoverVal : Specification → ℕ → Value → Value → Value
  | .integer _ (.sequence _ _), _, .integer a, .integer b =>
      .integer (Int.tdiv (wrap32 (a + b)) 2)
  | .integer _ (.candidates cs), r, .index i, .index j =>
      if i = j then .index i else .index (r % cs.length)
  | .switch, r, .switch a, .switch b =>
      if a = b then .switch a else .switch (r % 2 = 1)
  | .keyword ks, r, .index i, .index j =>
      if i = j then .index i else .index (r % ks.length)
  | _, _, a, _ => a

/-- `crossover(profile, a, b)` (src/strategies/genetic/mod.rs lines
163–185): per-parameter crossover over the shared key set, here in the
aligned-list representation; `rs` is the per-parameter random draw. -/
def crossoverValues : List Specification → List ℕ → List Value → List Value → List Value
  | s :: ss, r :: rs, a :: av, b :: bv =>
      s.crossoverVal r a b :: crossoverValues ss rs av bv
  | _, _, _, _ => []

/-- No-overflow side condition for the `(a + b) / 2` crossover of an
Integer `Sequence`: the sum of two in-range values stays inside `i32`. -/
def Specification.addNoOverflow : Specification → Prop
  | .integer _ (.sequence lo hi) =>
      -2147483648 ≤ lo + lo ∧ hi + hi ≤ 2147483647
  | _ => True

instance : DecidablePred Specification.addNoOverflow := fun s =>
  match s with
  | .integer _ (.sequence lo hi) =>
      inferInstanceAs (Decidable (-2147483648 ≤ lo + lo ∧ hi + hi ≤ 2147483647))
  | .integer _ (.candidates _) => inferInstanceAs (Decidable True)
  | .switch => inferInstanceAs (Decidable True)
  | .keyword _ => inferInstanceAs (Decidable True)

/-! ## Stochastic universal sampling
(src/strategies/genetic/mod.rs lines 198–233) -/

/-- The inner `while current_index < roulette.len() && current_sum < pointer`
walk: accumulate the fitness at the current index and advance. The index
strictly increases and the loop exits at the length, so fuel equal to the
roulette length always suffices; the embedding passes exactly that. -/
def susWhile (roulette : List (ℚ × ℕ)) (pointer : ℚ) : ℕ → ℕ → ℚ → ℕ × ℚ
  | 0, idx, sum => (idx, sum)
  | fuel + 1, idx, sum =>
      if idx < roulette.length ∧ sum < pointer then
        susWhile roulette pointer fuel (idx + 1) (sum + (roulette.getD idx (0, 0)).1)
      else (idx, sum)

/-- The `for i in 0..n` selection loop: compute the pointer, walk the
roulette, and select by the three-way branch of the source
(`current_index == 0` → first entry; `<= len` → entry before the index;
otherwise the last entry). The state `(idx, sum)` persists across
pointers. Out-of-range `roulette[...]` would panic in Rust and is read
with a `(0,0)` default here; all theorems avoid it. -/
def susLoop (roulette : List (ℚ × ℕ)) (start distance : ℚ) :
    ℕ → ℕ → ℕ → ℚ → List ℕ
  | 0, _, _, _ => []
  | k + 1, i, idx, sum =>
      let pointer := start + (i : ℚ) * distance
      let w := susWhile roulette pointer roulette.length idx sum
      let sel :=
        if w.1 = 0 then (roulette.getD 0 (0, 0)).2
        else if w.1 ≤ roulette.length then (roulette.getD (w.1 - 1) (0, 0)).2
        else (roulette.getD (roulette.length - 1) (0, 0)).2
      sel :: susLoop roulette start distance k (i + 1) w.1 w.2

/-- `stochastic_universal_sampling(roulette, n)`: `distance = total / n`,
`start = rand::random::<f64>() * distance` with the random draw
`r ∈ [0, 1)` passed explicitly; then the pointer loop. The source's
`assert!`s (non-empty roulette, `n ≠ 0`, non-negative fitnesses, positive
total) are carried as theorem hypotheses. `f64` arithmetic is idealized as
exact rational arithmetic; the theorems that quantify over `r` state this
idealization. -/
def sus (roulette : List (ℚ × ℕ)) (n : ℕ) (r : ℚ) : List ℕ :=
  let total := (roulette.map Prod.fst).sum
  let distance := total / (n : ℚ)
  let start := r * distance
  susLoop roulette start distance n 0 0 0

/-! ## Evaluation pipeline (src/main.rs `Autotuner::evaluate`,
src/context.rs, src/hook.rs, src/runner.rs) -/

/-- Context `Result` (src/context.rs): `Unknown` on construction, set to
`Valid(f64)` or `Invalid` by foreign code. -/
inductive CtxResult : Type where
  | unknown
  | valid (f : F64)
  | invalid
deriving DecidableEq

/-- `Result::unwrap(criterion)`: a Valid value is returned, Invalid maps
to the criterion's sentinel, Unknown is the "No result returned" error
(`none`, aborting the evaluation). -/
def CtxResult.unwrap : CtxResult → Criterion → Option F64
  | .valid f, _ => some f
  | .invalid, c => some (.val c.invalid)
  | .unknown, _ => none

/-- The mutable part of the per-evaluation `Context` (src/context.rs): the
extra compiler arguments pushed by hooks, and the `Result`. The profile,
individual and temp-dir fields are read-only references. -/
structure EvalContext : Type where
  arguments : List String
  result : CtxResult
deriving DecidableEq

/-- One call a hook can make through its `get` table: exactly the seven
dispatchable functions of src/hook.rs. The four reads carry their
arguments but cannot affect the context. -/
inductive HookCall : Type where
  | getWorkingDirectory
  | invalidate
  | appendArgument (arg : String)
  | getInteger (name : String)
  | getSwitch (name : String)
  | getKeyword (name : String)
  | workspaceGetPtr (name : String)
deriving DecidableEq

/-- Effect of one hook call on the context (src/hook.rs lines 105–255):
`context_invalidate` sets the Result to Invalid, `context_append_argument`
appends an argument, every other entry only reads. -/
def applyHookCall : HookCall → EvalContext → EvalContext
  | .invalidate, c => { c with result := .invalid }
  | .appendArgument s, c => { c with arguments := c.arguments ++ [s] }
  | _, c => c

/-- A hook invocation is a finite sequence of calls through its table. -/
def runHook (calls : List HookCall) (c : EvalContext) : EvalContext :=
  calls.foldl (fun c call => applyHookCall call c) c

/-- One call the runner can make through its `get` table (src/runner.rs):
`get_ptr` (reads a workspace slot) or `result(f64)` (sets Valid). -/
inductive RunnerCall : Type where
  | getPtr (name : String)
  | result (f : F64)
deriving DecidableEq

/-- Effect of one runner call (src/runner.rs lines 53–78). -/
def applyRunnerCall : RunnerCall → EvalContext → EvalContext
  | .result f, c => { c with result := .valid f }
  | .getPtr _, c => c

def runRunner (calls : List RunnerCall) (c : EvalContext) : EvalContext :=
  calls.foldl (fun c call => applyRunnerCall call c) c

/-- Outcome of `evaluate`: the returned fitness (`none` models a process
abort — compile `unwrap` failure, "No result returned", or the NaN
check), whether the compile driver was invoked, how many times the runner
was called, and the collected per-repetition fitnesses. -/
structure EvalOutcome : Type where
  result : Option F64
  compiled : Bool
  runnerInvocations : ℕ
  fitnesses : List F
deriving DecidableEq

/-- The repetition loop of `evaluate` (src/main.rs lines 547–573): invoke
the runner (whose calls on invocation `i` are `runnerCalls i`), unwrap the
context result against the criterion, panic on NaN, and collect. Returns
the number of runner invocations made and, unless it panicked, the final
context and fitness list. The context, including a Valid result from an
earlier repetition, persists across repetitions. -/
def runRepetitions (runnerCalls : ℕ → List RunnerCall) (criterion : Criterion) :
    ℕ → ℕ → EvalContext → List F → ℕ × Option (EvalContext × List F)
  | 0, _, c, acc => (0, some (c, acc))
  | k + 1, i, c, acc =>
      let c' := runRunner (runnerCalls i) c
      match c'.result.unwrap criterion with
      | none => (1, none)
      | some .nan => (1, none)
      | some (.val f) =>
          let rest := runRepetitions runnerCalls criterion k (i + 1) c' (acc ++ [f])
          (rest.1 + 1, rest.2)

/-- `Autotuner::evaluate` (src/main.rs lines 505–588): run the pre-hooks
on a fresh context; if the Result is Invalid return the criterion's
sentinel; compile unless the shared object is cached (`compileOk = false`
models a compile error, whose `unwrap` aborts); run the runner
`repetition` times collecting fitnesses; store
`Valid(representative(fitnesses))`; run the post-hooks; return the
unwrapped Result. -/
def evaluate (criterion : Criterion) (preHooks postHooks : List (List HookCall))
    (cached compileOk : Bool) (runnerCalls : ℕ → List RunnerCall)
    (repetition : ℕ) : EvalOutcome :=
  let c0 : EvalContext := { arguments := [], result := .unknown }
  let c1 := preHooks.foldl (fun c h => runHook h c) c0
  if c1.result = .invalid then
    { result := some (.val criterion.invalid), compiled := false,
      runnerInvocations := 0, fitnesses := [] }
  else if cached = false ∧ compileOk = false then
    { result := none, compiled := true, runnerInvocations := 0, fitnesses := [] }
  else
    match runRepetitions runnerCalls criterion repetition 0 c1 [] with
    | (count, none) =>
        { result := none, compiled := !cached, runnerInvocations := count,
          fitnesses := [] }
    | (count, some (c2, fits)) =>
        match criterion.representative fits with
        | none =>
            { result := none, compiled := !cached, runnerInvocations := count,
              fitnesses := fits }
        | some rep =>
            { result :=
                ((postHooks.foldl (fun c h => runHook h c)
                  { c2 with result := .valid (.val rep) }).result.unwrap criterion),
              compiled := !cached, runnerInvocations := count, fitnesses := fits }

/-! ## Compile driver (src/compile.rs) -/

/-- `compile::Error` (src/compile.rs lines 3–7): spawn/wait failure, or a
compilation failure optionally carrying captured stderr. -/
inductive CompileError : Type where
  | spawn
  | compilation (stderr : Option String)
deriving DecidableEq

/-- The argument vector `compile` builds before spawning:
`-shared -o <output> <args…>` (src/compile.rs lines 28–33). -/
def compileCommandArgs (output : String) (arguments : List String) : List String :=
  "-shared" :: "-o" :: output :: arguments

/-- Behavior of one compiler-subprocess run, as seen by `compile`:
whether `spawn()` and `wait()` fail, the exit status, and what
`read_to_string` on the child's stderr pipe would yield (`none` models an
unreadable stream). -/
structure ProcessEnv : Type where
  spawnFails : Bool
  waitFails : Bool
  exitSuccess : Bool
  stderrReadable : Option String
deriving DecidableEq

/-- Whether `compile` configures the child's stderr as `Stdio::piped()`:
it never does (src/compile.rs lines 28–35 configure only the arguments),
so `Child::stderr` — which is `Some` only for piped stderr — is `None`. -/
def compileStderrPiped : Bool := false

/-- `compile(compiler, output, arguments)` (src/compile.rs lines 23–55):
`Spawn` on spawn or wait failure, `Ok` on exit status zero, otherwise
`Compilation(reason)` with
`reason = child.stderr.take().map(read_to_string…).flatten()`. -/
def compileRun (env : ProcessEnv) : Except CompileError Unit :=
  if env.spawnFails then .error .spawn
  else if env.waitFails then .error .spawn
  else if env.exitSuccess then .ok ()
  else
    .error (.compilation
      ((if compileStderrPiped then some env.stderrReadable else none).bind id))

/-! ## C-ABI dispatch tables (src/hook.rs, src/runner.rs, src/helper.rs) -/

/-- The host callbacks resolvable through the three `get` dispatchers: one
constructor per `extern "C"` function in the source, plus `null` for
unknown ids. -/
inductive AbiFunction : Type where
  | contextGetWorkingDirectory
  | contextInvalidate
  | contextAppendArgument
  | parameterGetInteger
  | parameterGetSwitch
  | parameterGetKeyword
  | hookWorkspaceGetPtr
  | helperWorkspaceSetPtr
  | helperWorkspaceGetPtr
  | runnerGetPtr
  | runnerResult
  | null
deriving DecidableEq

/-- The hook `get` (src/hook.rs lines 90–103, ids from the `Interface`
enum of lines 48–59). -/
def hookGet (id : ℤ) : AbiFunction :=
  if id = 0x00 then .contextGetWorkingDirectory
  else if id = 0x01 then .contextInvalidate
  else if id = 0x02 then .contextAppendArgument
  else if id = 0x10 then .parameterGetInteger
  else if id = 0x11 then .parameterGetSwitch
  else if id = 0x12 then .parameterGetKeyword
  else if id = 0x20 then .hookWorkspaceGetPtr
  else .null

/-- The runner `get` (src/runner.rs lines 45–51; `GetPtr = 0x00`,
`Result = 0x10`). -/
def runnerGet (id : ℤ) : AbiFunction :=
  if id = 0x00 then .runnerGetPtr
  else if id = 0x10 then .runnerResult
  else .null

/-- The helper `get` (src/helper.rs lines 52–58; `WorkspaceSetPtr = 0x00`,
`WorkspaceGetPtr = 0x10`). -/
def helperGet (id : ℤ) : AbiFunction :=
  if id = 0x00 then .helperWorkspaceSetPtr
  else if id = 0x10 then .helperWorkspaceGetPtr
  else .null

/-! ## Checkpoint serialization (src/strategies/mod.rs `Checkpoint`,
serde_json encoding of the derived `Serialize`/`Deserialize` impls) -/

/-- JSON documents as serde_json produces them for the checkpoint types
(numbers are integers there; objects keep field order). -/
inductive Json : Type where
  | null
  | bool (b : Bool)
  | num (n : ℤ)
  | str (s : String)
  | arr (items : List Json)
  | obj (fields : List (String × Json))

/-- Field lookup, as serde's map access resolves struct fields by name. -/
def Json.getField : Json → String → Option Json
  | .obj fields, name => (fields.find? (fun f => f.1 == name)).map Prod.snd
  | _, _ => none

/-- serde: `Option<String>` (the `IntegerTransformer` newtype) is `null`
or the inner string. -/
def encOptStr : Option String → Json
  | none => .null
  | some s => .str s

def decOptStr : Json → Option (Option String)
  | .null => some none
  | .str s => some (some s)
  | _ => none

/-- serde: externally tagged enum `Value` (src/parameter.rs). -/
def encValue : Value → Json
  | .integer n => .obj [("Integer", .num n)]
  | .switch b => .obj [("Switch", .bool b)]
  | .index i => .obj [("Index", .num i)]

def decInt : Json → Option ℤ
  | .num n => some n
  | _ => none

def decNat : Json → Option ℕ
  | .num n => if 0 ≤ n then some n.toNat else none
  | _ => none

def decStr : Json → Option String
  | .str s => some s
  | _ => none

def decBool : Json → Option Bool
  | .bool b => some b
  | _ => none

def decValue : Json → Option Value
  | .obj [("Integer", v)] => (decInt v).map Value.integer
  | .obj [("Switch", v)] => (decBool v).map Value.switch
  | .obj [("Index", v)] => (decNat v).map Value.index
  | _ => none

/-- serde sequence decoding: every element must decode. -/
def decodeList (dec : Json → Option α) : List Json → Option (List α)
  | [] => some []
  | j :: rest =>
      match dec j, decodeList dec rest with
      | some x, some xs => some (x :: xs)
      | _, _ => none

/-- serde: externally tagged `IntegerSpace`; the tuple variant
`Sequence(i32, i32)` is a two-element array. -/
def encIntegerSpace : IntegerSpace → Json
  | .sequence lo hi => .obj [("Sequence", .arr [.num lo, .num hi])]
  | .candidates cs => .obj [("Candidates", .arr (cs.map Json.num))]

def decIntegerSpace : Json → Option IntegerSpace
  | .obj [("Sequence", .arr [a, b])] =>
      match decInt a, decInt b with
      | some lo, some hi => some (.sequence lo hi)
      | _, _ => none
  | .obj [("Candidates", v)] =>
      match v with
      | .arr items => (decodeList decInt items).map IntegerSpace.candidates
      | _ => none
  | _ => none

/-- serde: `Specification` — a struct variant for `Integer`, a unit
variant (plain string) for `Switch`, a newtype variant for `Keyword`
whose `KeywordSpace` newtype is the inner `Vec<String>`. -/
def encSpecification : Specification → Json
  | .integer t sp =>
      .obj [("Integer", .obj [("transformer", encOptStr t), ("space", encIntegerSpace sp)])]
  | .switch => .str "Switch"
  | .keyword ks => .obj [("Keyword", .arr (ks.map Json.str))]

def decSpecification : Json → Option Specification
  | .str "Switch" => some .switch
  | .obj [("Integer", body)] =>
      match body.getField "transformer", body.getField "space" with
      | some jt, some jsp =>
          match decOptStr jt, decIntegerSpace jsp with
          | some t, some sp => some (.integer t sp)
          | _, _ => none
      | _, _ => none
  | .obj [("Keyword", v)] =>
      match v with
      | .arr items => (decodeList decStr items).map Specification.keyword
      | _ => none
  | _ => none

/-- serde: the `State` struct (src/strategies/exhaustive/state.rs lines
5–11), fields in declaration order. -/
def encState (s : State) : Json :=
  .obj [("names", .arr (s.names.map Json.str)),
        ("values", .arr (s.values.map encValue)),
        ("specifications", .arr (s.specifications.map encSpecification)),
        ("done", .bool s.done)]

def decJsonList (dec : Json → Option α) : Json → Option (List α)
  | .arr items => decodeList dec items
  | _ => none

def decState (j : Json) : Option State :=
  match j.getField "names", j.getField "values",
      j.getField "specifications", j.getField "done" with
  | some jn, some jv, some js, some jd =>
      match decJsonList decStr jn, decJsonList decValue jv,
          decJsonList decSpecification js, decBool jd with
      | some names, some values, some specs, some done =>
          some ⟨names, values, specs, done⟩
      | _, _, _, _ => none
  | _, _, _, _ => none

/-- Genetic strategy `State` (src/strategies/genetic/state.rs lines 5–10):
generation, count, reference-counted individuals. -/
structure GState : Type where
  generation : ℕ
  count : ℕ
  individuals : List Individual
deriving DecidableEq

/-- serde: `Individual`/`Instance` uses a custom impl serializing the
parameter map as a vector of `(name, value)` pairs (src/parameter.rs
lines 321–346); a tuple is a two-element array. -/
def encIndividual (ind : Individual) : Json :=
  .arr (ind.parameters.map (fun nv => .arr [.str nv.1, encValue nv.2]))

def decPair : Json → Option (String × Value)
  | .arr [a, b] =>
      match decStr a, decValue b with
      | some s, some v => some (s, v)
      | _, _ => none
  | _ => none

def decIndividual : Json → Option Individual
  | .arr items => (decodeList decPair items).map Individual.mk
  | _ => none

def encGState (g : GState) : Json :=
  .obj [("generation", .num g.generation),
        ("count", .num g.count),
        ("individuals", .arr (g.individuals.map encIndividual))]

def decGState (j : Json) : Option GState :=
  match j.getField "generation", j.getField "count", j.getField "individuals" with
  | some jg, some jc, some ji =>
      match decNat jg, decNat jc, decJsonList decIndividual ji with
      | some generation, some count, some individuals =>
          some ⟨generation, count, individuals⟩
      | _, _, _ => none
  | _, _, _ => none

/-- `Checkpoint` (src/strategies/mod.rs lines 17–21): tagged union of the
exhaustive and genetic states. -/
inductive Checkpoint : Type where
  | exhaustive (s : State)
  | genetic (g : GState)
deriving DecidableEq

/-- serde: externally tagged `Checkpoint`. -/
def encCheckpoint : Checkpoint → Json
  | .exhaustive s => .obj [("Exhaustive", encState s)]
  | .genetic g => .obj [("Genetic", encGState g)]

def decCheckpoint : Json → Option Checkpoint
  | .obj [("Exhaustive", body)] => (decState body).map Checkpoint.exhaustive
  | .obj [("Genetic", body)] => (decGState body).map Checkpoint.genetic
  | _ => none

/-! ### End of definitions (theorems only below this point) -/

/-! ## Chain lemmas for the exhaustive iterator -/

theorem Linked.append {α : Type u} {f : α → Option α} :
    ∀ {xs ys : List α}, Linked f xs → Linked f ys →
    (∀ a b, xs.getLast? = some a → ys.head? = some b → f a = some b) →
    Linked f (xs ++ ys) := by
  intro xs
  induction xs with
  | nil => intro ys _ hy _; simpa using hy
  | cons x xs ih =>
    intro ys hx hy hlink
    cases xs with
    | nil =>
      cases ys with
      | nil => simpa using hx
      | cons y ys' =>
        exact ⟨hlink x y rfl rfl, hy⟩
    | cons x' xs' =>
      obtain ⟨hfx, hrest⟩ := hx
      exact ⟨hfx, ih hrest hy (fun a b ha hb => hlink a b (by simpa using ha) hb)⟩

theorem Linked.map_chain {α : Type u} {β : Type v} {f : α → Option α} {F : β → Option β}
    {m : α → β} (hm : ∀ a b, f a = some b → F (m a) = some (m b)) :
    ∀ {l : List α}, Linked f l → Linked F (l.map m) := by
  intro l
  induction l with
  | nil => intro; trivial
  | cons x xs ih =>
    intro hx
    cases xs with
    | nil => trivial
    | cons y ys => exact ⟨hm _ _ hx.1, ih hx.2⟩

theorem linked_range'_map {α : Type u} (g : ℕ → α) (f : α → Option α) :
    ∀ (N a : ℕ), (∀ k, a ≤ k → k + 1 < a + N → f (g k) = some (g (k + 1))) →
    Linked f ((List.range' a N).map g) := by
  intro N
  induction N with
  | zero => intro a _; trivial
  | succ M ih =>
    intro a hstep
    rw [List.range'_succ]
    cases M with
    | zero => trivial
    | succ K =>
      rw [List.range'_succ, List.map_cons, List.map_cons]
      refine ⟨hstep a le_rfl (by omega), ?_⟩
      have := ih (a + 1) (fun k hk hk2 => hstep k (by omega) (by omega))
      rw [List.range'_succ, List.map_cons] at this
      exact this

theorem head?_flatMap_of_head {α : Type u} {β : Type v} {g : α → List β} {l : List α} {a : α}
    (hl : l.head? = some a) (hne : g a ≠ []) :
    (l.flatMap g).head? = (g a).head? := by
  cases l with
  | nil => simp at hl
  | cons a' l' =>
    have haa : a = a' := by simpa using hl.symm
    subst haa
    rw [List.flatMap_cons, List.head?_append]
    cases h : g a with
    | nil => exact absurd h hne
    | cons b bs => simp [h]

theorem getLast?_flatMap_of_blocks {α : Type u} {β : Type v} {g : α → List β} :
    ∀ {l : List α} (a : α), l.getLast? = some a → (∀ x ∈ l, g x ≠ []) →
    (l.flatMap g).getLast? = (g a).getLast? := by
  intro l
  induction l with
  | nil => intro a ha; simp at ha
  | cons x l' ih =>
    intro a ha hne
    cases l' with
    | nil =>
      obtain rfl : x = a := by simpa using ha
      simp
    | cons y l'' =>
      rw [List.getLast?_cons_cons] at ha
      rw [List.flatMap_cons, List.getLast?_append]
      rw [ih a ha (fun z hz => hne z (List.mem_cons_of_mem _ hz))]
      have hga : g a ≠ [] := hne a (List.mem_cons_of_mem _ (List.mem_of_mem_getLast? ha))
      cases h : (g a).getLast? with
      | none => exact absurd (List.getLast?_eq_none_iff.mp h) hga
      | some b => simp

theorem Linked.flatMap {α : Type u} {β : Type v} {f : α → Option α} {F : β → Option β}
    {g : α → List β} :
    ∀ {l : List α}, Linked f l →
    (∀ a ∈ l, g a ≠ []) →
    (∀ a ∈ l, Linked F (g a)) →
    (∀ a b, a ∈ l → f a = some b →
      ∀ x y, (g a).getLast? = some x → (g b).head? = some y → F x = some y) →
    Linked F (l.flatMap g) := by
  intro l
  induction l with
  | nil => intro _ _ _ _; trivial
  | cons a l' ih =>
    intro hl hne hwithin hcross
    rw [List.flatMap_cons]
    cases l' with
    | nil => simpa using hwithin a (by simp)
    | cons b l'' =>
      refine Linked.append (hwithin a (by simp)) ?_ ?_
      · exact ih hl.2 (fun z hz => hne z (List.mem_cons_of_mem _ hz))
          (fun z hz => hwithin z (List.mem_cons_of_mem _ hz))
          (fun z w hz hw => hcross z w (List.mem_cons_of_mem _ hz) hw)
      · intro x y hx hy
        have hb : ((b :: l'').flatMap g).head? = (g b).head? :=
          head?_flatMap_of_head rfl (hne b (by simp))
        rw [hb] at hy
        exact hcross a b (by simp) hl.1 x y hx hy

/-! ## Per-space enumeration lemmas -/

theorem spaceList_head? {s : Specification} (h : s.WF) :
    s.spaceList.head? = some s.first := by
  cases s with
  | integer t sp =>
    cases sp with
    | sequence lo hi =>
      have hN : ∃ M, (hi - lo + 1).toNat = M + 1 := by
        refine ⟨(hi - lo + 1).toNat - 1, ?_⟩
        have : lo ≤ hi := h
        omega
      obtain ⟨M, hM⟩ := hN
      simp only [Specification.spaceList, Specification.first, hM,
        List.range_eq_range', List.range'_succ, List.map_cons, List.head?_cons]
      norm_num
    | candidates cs =>
      have : cs.length ≠ 0 := by
        simpa [List.length_eq_zero] using (h : cs ≠ [])
      obtain ⟨M, hM⟩ : ∃ M, cs.length = M + 1 := ⟨cs.length - 1, by omega⟩
      simp [Specification.spaceList, Specification.first, hM,
        List.range_eq_range', List.range'_succ]
  | switch => rfl
  | keyword ks =>
    have : ks.length ≠ 0 := by
      simpa [List.length_eq_zero] using (h : ks ≠ [])
    obtain ⟨M, hM⟩ : ∃ M, ks.length = M + 1 := ⟨ks.length - 1, by omega⟩
    simp [Specification.spaceList, Specification.first, hM,
      List.range_eq_range', List.range'_succ]

theorem spaceList_ne_nil {s : Specification} (h : s.WF) : s.spaceList ≠ [] := by
  intro hnil
  have := spaceList_head? h
  rw [hnil] at this
  simp at this

theorem spaceList_linked (s : Specification) : Linked s.next s.spaceList := by
  cases s with
  | integer t sp =>
    cases sp with
    | sequence lo hi =>
      rw [Specification.spaceList, List.range_eq_range']
      apply linked_range'_map
      intro k hk hk2
      have h1 : (lo : ℤ) + k < hi := by omega
      simp [Specification.next, h1]
      ring
    | candidates cs =>
      rw [Specification.spaceList, List.range_eq_range']
      apply linked_range'_map
      intro k hk hk2
      simp [Specification.next]
      omega
  | switch =>
    refine ⟨?_, trivial⟩
    simp [Specification.next, Specification.spaceList]
  | keyword ks =>
    rw [Specification.spaceList, List.range_eq_range']
    apply linked_range'_map
    intro k hk hk2
    simp [Specification.next]
    omega

theorem spaceList_getLast?_next {s : Specification} :
    ∀ z, s.spaceList.getLast? = some z → s.next z = none := by
  intro z hz
  cases s with
  | integer t sp =>
    cases sp with
    | sequence lo hi =>
      rw [Specification.spaceList] at hz
      rcases hN : (hi - lo + 1).toNat with _ | M
      · rw [hN] at hz; simp at hz
      · rw [hN, List.range_succ, List.map_append] at hz
        simp only [List.map_cons, List.map_nil, List.getLast?_concat] at hz
        obtain rfl := (Option.some_injective _ hz).symm
        have : ¬ (lo + (M : ℤ) < hi) := by omega
        simp [Specification.next, this]
    | candidates cs =>
      rw [Specification.spaceList] at hz
      rcases hN : cs.length with _ | M
      · rw [hN] at hz; simp at hz
      · rw [hN, List.range_succ, List.map_append] at hz
        simp only [List.map_cons, List.map_nil, List.getLast?_concat] at hz
        obtain rfl := (Option.some_injective _ hz).symm
        have : ¬ (M + 1 < cs.length) := by omega
        simp [Specification.next, this]
  | switch =>
    rw [Specification.spaceList] at hz
    simp only [List.getLast?_cons_cons, List.getLast?_singleton] at hz
    obtain rfl := (Option.some_injective _ hz).symm
    simp [Specification.next]
  | keyword ks =>
    rw [Specification.spaceList] at hz
    rcases hN : ks.length with _ | M
    · rw [hN] at hz; simp at hz
    · rw [hN, List.range_succ, List.map_append] at hz
      simp only [List.map_cons, List.map_nil, List.getLast?_concat] at hz
      obtain rfl := (Option.some_injective _ hz).symm
      have : ¬ (M + 1 < ks.length) := by omega
      simp [Specification.next, this]

theorem spaceList_length (s : Specification) : s.spaceList.length = s.spaceLen := by
  cases s with
  | integer t sp => cases sp <;> simp [Specification.spaceList, Specification.spaceLen]
  | switch => rfl
  | keyword ks => simp [Specification.spaceList, Specification.spaceLen]

theorem spaceList_nodup (s : Specification) : s.spaceList.Nodup := by
  cases s with
  | integer t sp =>
    cases sp with
    | sequence lo hi =>
      refine List.Nodup.map ?_ (List.nodup_range _)
      intro x y hxy
      simp only [Value.integer.injEq] at hxy
      omega
    | candidates cs =>
      refine List.Nodup.map ?_ (List.nodup_range _)
      intro x y hxy
      simpa using hxy
  | switch => simp [Specification.spaceList]
  | keyword ks =>
    refine List.Nodup.map ?_ (List.nodup_range _)
    intro x y hxy
    simpa using hxy

theorem mem_spaceList {s : Specification} (h : s.WF) {v : Value} :
    v ∈ s.spaceList ↔ v.inSpace s := by
  cases s with
  | integer t sp =>
    cases sp with
    | sequence lo hi =>
      simp only [Specification.spaceList, List.mem_map, List.mem_range]
      cases v with
      | integer n =>
        constructor
        · rintro ⟨k, hk, hv⟩
          simp only [Value.integer.injEq] at hv
          simp only [Value.inSpace]
          omega
        · intro hv
          obtain ⟨h1, h2⟩ : lo ≤ n ∧ n ≤ hi := hv
          exact ⟨(n - lo).toNat, by omega, by simp [Value.integer.injEq]; omega⟩
      | switch b =>
        simp only [Value.inSpace, iff_false]
        rintro ⟨k, _, hv⟩
        exact absurd hv (by simp)
      | index i =>
        simp only [Value.inSpace, iff_false]
        rintro ⟨k, _, hv⟩
        exact absurd hv (by simp)
    | candidates cs =>
      simp only [Specification.spaceList, List.mem_map, List.mem_range]
      cases v <;> simp [Value.inSpace]
  | switch =>
    cases v <;> simp [Specification.spaceList, Value.inSpace]
  | keyword ks =>
    simp only [Specification.spaceList, List.mem_map, List.mem_range]
    cases v <;> simp [Value.inSpace]

/-! ## The lexicographic product is the increment chain -/

theorem lexProduct_chain :
    ∀ specs : List Specification, (∀ s ∈ specs, s.WF) →
    (lexProduct specs).head? = some (specs.map Specification.first) ∧
    Linked (increment specs) (lexProduct specs) ∧
    (∀ z, (lexProduct specs).getLast? = some z → increment specs z = none) ∧
    lexProduct specs ≠ [] := by
  intro specs
  induction specs with
  | nil =>
    intro _
    refine ⟨rfl, trivial, ?_, by simp [lexProduct]⟩
    intro z hz
    simp only [lexProduct, List.getLast?_singleton, Option.some_injective] at hz
    obtain rfl := (Option.some_injective _ hz).symm
    rfl
  | cons s ss ih =>
    intro hwf
    obtain ⟨ihHead, ihLinked, ihLast, ihNe⟩ := ih (fun t ht => hwf t (List.mem_cons_of_mem _ ht))
    have hswf : s.WF := hwf s (List.mem_cons_self _ _)
    have hblockne : ∀ v : Value, (lexProduct ss).map (v :: ·) ≠ [] := by
      intro v h
      exact ihNe (List.map_eq_nil_iff.mp h)
    have hhead : (lexProduct (s :: ss)).head? = some ((s :: ss).map Specification.first) := by
      rw [lexProduct]
      rw [head?_flatMap_of_head (spaceList_head? hswf) (hblockne _)]
      rw [List.head?_map, ihHead]
      rfl
    refine ⟨hhead, ?_, ?_, ?_⟩
    · rw [lexProduct]
      refine Linked.flatMap (spaceList_linked s) (fun a _ => hblockne a) ?_ ?_
      · intro a _
        refine Linked.map_chain ?_ ihLinked
        intro x y hxy
        simp [increment, hxy]
      · intro a b _ hab x y hx hy
        rw [List.getLast?_map] at hx
        rw [List.head?_map, ihHead] at hy
        obtain ⟨zl, hzl, rfl⟩ : ∃ zl, (lexProduct ss).getLast? = some zl ∧ x = a :: zl := by
          cases h : (lexProduct ss).getLast? with
          | none => rw [h] at hx; simp at hx
          | some w =>
            rw [h] at hx
            exact ⟨w, rfl, by simpa using hx.symm⟩
        obtain rfl : y = b :: ss.map Specification.first := by simpa using hy.symm
        simp [increment, ihLast zl hzl, hab]
    · intro z hz
      rw [lexProduct] at hz
      obtain ⟨vlast, hvlast⟩ : ∃ w, s.spaceList.getLast? = some w := by
        cases h : s.spaceList.getLast? with
        | none => exact absurd (List.getLast?_eq_none_iff.mp h) (spaceList_ne_nil hswf)
        | some w => exact ⟨w, rfl⟩
      rw [getLast?_flatMap_of_blocks vlast hvlast (fun x _ => hblockne x),
        List.getLast?_map] at hz
      obtain ⟨zl, hzl, rfl⟩ : ∃ zl, (lexProduct ss).getLast? = some zl ∧ z = vlast :: zl := by
        cases h : (lexProduct ss).getLast? with
        | none => rw [h] at hz; simp at hz
        | some w =>
          rw [h] at hz
          exact ⟨w, rfl, by simpa using hz.symm⟩
      simp [increment, ihLast zl hzl, spaceList_getLast?_next vlast hvlast]
    · intro h
      have := hhead
      rw [h] at this
      simp at this

theorem lexProduct_length :
    ∀ specs : List Specification,
    (lexProduct specs).length = (specs.map Specification.spaceLen).prod := by
  intro specs
  induction specs with
  | nil => rfl
  | cons s ss ih =>
    rw [lexProduct, List.length_flatMap]
    have : (List.map (List.length ∘ fun v => (lexProduct ss).map (v :: ·)) s.spaceList)
        = List.map (fun _ => (lexProduct ss).length) s.spaceList := by
      apply List.map_congr_left
      intro v _
      simp
    rw [this, List.map_const', List.sum_replicate, smul_eq_mul, ih,
      spaceList_length, List.map_cons, List.prod_cons]

theorem lexProduct_nodup : ∀ specs : List Specification, (lexProduct specs).Nodup := by
  intro specs
  induction specs with
  | nil => simp [lexProduct]
  | cons s ss ih =>
    rw [lexProduct, List.nodup_flatMap]
    constructor
    · intro v _
      refine List.Nodup.map ?_ ih
      intro x y hxy
      simpa using hxy
    · refine List.Pairwise.imp ?_ (spaceList_nodup s)
      intro a b hab
      intro x hxa hxb
      simp only [Function.onFun, List.mem_map] at hxa hxb
      obtain ⟨wa, _, rfl⟩ := hxa
      obtain ⟨wb, _, hw⟩ := hxb
      have hba : b = a ∧ wb = wa := by simpa using hw
      exact hab hba.1.symm

theorem length_of_mem_lexProduct :
    ∀ {specs : List Specification} {vs : List Value},
    vs ∈ lexProduct specs → vs.length = specs.length := by
  intro specs
  induction specs with
  | nil =>
    intro vs hvs
    simp only [lexProduct, List.mem_singleton] at hvs
    simp [hvs]
  | cons s ss ih =>
    intro vs hvs
    rw [lexProduct, List.mem_flatMap] at hvs
    obtain ⟨v, _, hvs⟩ := hvs
    rw [List.mem_map] at hvs
    obtain ⟨w, hw, rfl⟩ := hvs
    simp [ih hw]

theorem mem_lexProduct :
    ∀ {specs : List Specification} {vs : List Value},
    vs ∈ lexProduct specs ↔ List.Forall₂ (fun s v => v ∈ s.spaceList) specs vs := by
  intro specs
  induction specs with
  | nil =>
    intro vs
    simp only [lexProduct, List.mem_singleton]
    constructor
    · rintro rfl; exact List.Forall₂.nil
    · intro h; cases h; rfl
  | cons s ss ih =>
    intro vs
    rw [lexProduct, List.mem_flatMap]
    constructor
    · rintro ⟨v, hv, hvs⟩
      rw [List.mem_map] at hvs
      obtain ⟨w, hw, rfl⟩ := hvs
      exact List.Forall₂.cons hv (ih.mp hw)
    · intro h
      cases h with
      | cons hv hw => exact ⟨_, hv, List.mem_map.mpr ⟨_, ih.mpr hw, rfl⟩⟩

/-! ## Running the iterator -/

theorem next_eq_none_iff {s : State} : s.next = none ↔ s.done = true := by
  constructor
  · intro h
    by_contra hc
    rw [State.next, if_neg (by simpa using hc)] at h
    cases hinc : increment s.specifications s.values <;> rw [hinc] at h <;> simp at h
  · intro h
    rw [State.next, if_pos (by simp [h])]

theorem next_eq_some_inc {s : State} (hdone : s.done = false) {vs' : List Value}
    (hinc : increment s.specifications s.values = some vs') :
    s.next = some (⟨s.names.zip s.values⟩, { s with values := vs' }) := by
  rw [State.next, if_neg (by simp [hdone])]
  simp only [hinc]

theorem next_eq_some_done {s : State} (hdone : s.done = false)
    (hinc : increment s.specifications s.values = none) :
    s.next = some (⟨s.names.zip s.values⟩, { s with done := true }) := by
  rw [State.next, if_neg (by simp [hdone])]
  simp only [hinc]

theorem run_succ_of_next {s : State} {ind : Individual} {s' : State}
    (h : s.next = some (ind, s')) (n : ℕ) :
    State.run (n + 1) s = ind :: State.run n s' := by
  rw [State.run, h]

theorem run_succ_of_next_none {s : State} (h : s.next = none) (n : ℕ) :
    State.run (n + 1) s = [] := by
  rw [State.run, h]

theorem run_done {s : State} (h : s.done = true) : ∀ fuel, State.run fuel s = [] := by
  intro fuel
  cases fuel with
  | zero => rfl
  | succ n => exact run_succ_of_next_none (next_eq_none_iff.mpr h) n

theorem advance_succ_of_next {s : State} {ind : Individual} {s' : State}
    (h : s.next = some (ind, s')) (k : ℕ) :
    State.advance (k + 1) s = State.advance k s' := by
  rw [State.advance, h]

theorem advance_succ_of_next_none {s : State} (h : s.next = none) (k : ℕ) :
    State.advance (k + 1) s = s := by
  rw [State.advance, h]

theorem run_eq_emit :
    ∀ (fuel : ℕ) (s : State), s.done = false →
    State.run fuel s
      = (emitValues s.specifications fuel s.values).map
          (fun vs => (⟨s.names.zip vs⟩ : Individual)) := by
  intro fuel
  induction fuel with
  | zero => intro s _; rfl
  | succ n ih =>
    intro s hdone
    rw [emitValues]
    cases hinc : increment s.specifications s.values with
    | some vs' =>
      rw [run_succ_of_next (next_eq_some_inc hdone hinc)]
      rw [ih { s with values := vs' } (by simpa using hdone)]
      simp
    | none =>
      rw [run_succ_of_next (next_eq_some_done hdone hinc)]
      rw [run_done (s := { s with done := true }) rfl]
      simp

theorem emit_eq_of_linked {specs : List Specification} :
    ∀ (rest : List (List Value)) (x : List Value) (fuel : ℕ),
    Linked (increment specs) (x :: rest) →
    (∀ z, (x :: rest).getLast? = some z → increment specs z = none) →
    rest.length < fuel →
    emitValues specs fuel x = x :: rest := by
  intro rest
  induction rest with
  | nil =>
    intro x fuel _ hlast hfuel
    obtain ⟨n, rfl⟩ : ∃ n, fuel = n + 1 := ⟨fuel - 1, by omega⟩
    rw [emitValues]
    rw [hlast x (by simp)]
  | cons y rest' ih =>
    intro x fuel hlink hlast hfuel
    obtain ⟨n, rfl⟩ : ∃ n, fuel = n + 1 := ⟨fuel - 1, by omega⟩
    rw [emitValues]
    rw [hlink.1]
    show x :: emitValues specs n y = x :: y :: rest'
    rw [ih y n hlink.2 (fun z hz => hlast z (by rw [List.getLast?_cons_cons]; exact hz))
      (by simpa using hfuel)]

theorem run_add :
    ∀ (k n : ℕ) (s : State),
    State.run (k + n) s = State.run k s ++ State.run n (State.advance k s) := by
  intro k
  induction k with
  | zero =>
    intro n s
    rw [Nat.zero_add]
    rfl
  | succ m ih =>
    intro n s
    have h1 : m + 1 + n = (m + n) + 1 := by omega
    rw [h1]
    cases hnext : s.next with
    | none =>
      have hdone : s.done = true := next_eq_none_iff.mp hnext
      rw [run_done hdone, run_done hdone, advance_succ_of_next_none hnext,
        run_done hdone]
      rfl
    | some is' =>
      obtain ⟨ind, s'⟩ := is'
      rw [run_succ_of_next hnext, run_succ_of_next hnext, advance_succ_of_next hnext,
        ih n s']
      rfl

theorem run_take :
    ∀ (n k : ℕ), k ≤ n → ∀ s : State, State.run k s = (State.run n s).take k := by
  intro n
  induction n with
  | zero =>
    intro k hk s
    obtain rfl : k = 0 := by omega
    rfl
  | succ m ih =>
    intro k hk s
    cases k with
    | zero => rfl
    | succ j =>
      cases hnext : s.next with
      | none =>
        rw [run_succ_of_next_none hnext, run_succ_of_next_none hnext]
        rfl
      | some is' =>
        obtain ⟨ind, s'⟩ := is'
        rw [run_succ_of_next hnext, run_succ_of_next hnext, List.take_succ_cons,
          ih j (by omega) s']


theorem foldl_mul_eq_prod {α : Type u} (f : α → ℕ) :
    ∀ (l : List α) (i : ℕ), l.foldl (fun a e => a * f e) i = i * (l.map f).prod := by
  intro l
  induction l with
  | nil => intro i; simp
  | cons e l ih =>
    intro i
    rw [List.foldl_cons, ih, List.map_cons, List.prod_cons]
    ring

theorem profile_len_eq_prod (p : Profile) :
    p.len = ((p.entries.map Prod.snd).map Specification.spaceLen).prod := by
  rw [Profile.len, foldl_mul_eq_prod, one_mul, List.map_map]
  rfl

/-- Omnibus enumeration result for `Profile.iter`: running the iterator for
`Profile.len` steps yields exactly the lexicographic product (zipped with the
names), and any further fuel yields nothing more. -/
theorem run_iter (p : Profile) (hwf : p.WF) :
    State.run p.len p.iter
      = (lexProduct (p.entries.map Prod.snd)).map
          (fun vs => (⟨(p.entries.map Prod.fst).zip vs⟩ : Individual)) ∧
    (∀ m, p.len ≤ m → State.run m p.iter = State.run p.len p.iter) := by
  have hwf' : ∀ s ∈ p.entries.map Prod.snd, s.WF := by
    intro s hs
    rw [List.mem_map] at hs
    obtain ⟨e, he, rfl⟩ := hs
    exact hwf e he
  obtain ⟨hhead, hlinked, hlast, hne⟩ := lexProduct_chain (p.entries.map Prod.snd) hwf'
  obtain ⟨x, rest, hxr⟩ : ∃ x rest, lexProduct (p.entries.map Prod.snd) = x :: rest := by
    cases h : lexProduct (p.entries.map Prod.snd) with
    | nil => exact absurd h hne
    | cons a l => exact ⟨a, l, rfl⟩
  have hx : x = (p.entries.map Prod.snd).map Specification.first := by
    rw [hxr] at hhead
    simpa using hhead
  have hlen : (lexProduct (p.entries.map Prod.snd)).length = p.len := by
    rw [lexProduct_length, profile_len_eq_prod]
  have hiter : p.iter.values = x := by
    rw [Profile.iter, hx]
  have hemit : ∀ fuel, rest.length < fuel →
      emitValues (p.entries.map Prod.snd) fuel x = x :: rest := by
    intro fuel hfuel
    rw [hxr] at hlinked hlast
    exact emit_eq_of_linked rest x fuel hlinked hlast hfuel
  have hrun : ∀ fuel, rest.length < fuel →
      State.run fuel p.iter
        = (lexProduct (p.entries.map Prod.snd)).map
            (fun vs => (⟨(p.entries.map Prod.fst).zip vs⟩ : Individual)) := by
    intro fuel hfuel
    rw [run_eq_emit fuel p.iter rfl]
    have hspecs : p.iter.specifications = p.entries.map Prod.snd := rfl
    have hnames : p.iter.names = p.entries.map Prod.fst := rfl
    rw [hspecs, hnames, hiter, hemit fuel hfuel, hxr]
  have hrest : rest.length < p.len := by
    have := hlen
    rw [hxr] at this
    simp only [List.length_cons] at this
    omega
  refine ⟨hrun p.len hrest, ?_⟩
  intro m hm
  rw [hrun p.len hrest, hrun m (by omega)]

theorem forall2_inSpace_mem :
    ∀ {entries : List (String × Specification)} {vs : List Value},
    (∀ e ∈ entries, e.2.WF) →
    List.Forall₂ (fun e v => Value.inSpace e.2 v) entries vs →
    List.Forall₂ (fun s v => v ∈ s.spaceList) (entries.map Prod.snd) vs := by
  intro entries
  induction entries with
  | nil =>
    intro vs _ h
    cases h
    exact List.Forall₂.nil
  | cons e es ih =>
    intro vs hwf h
    cases h with
    | cons hv hrest =>
      exact List.Forall₂.cons ((mem_spaceList (hwf e (List.mem_cons_self _ _))).mpr hv)
        (ih (fun x hx => hwf x (List.mem_cons_of_mem _ hx)) hrest)

/-- **C2** (confirmed). Under the precondition that every parameter's space
is non-empty (`Sequence` with `lo ≤ hi`, non-empty `Candidates` and
`Keyword` lists), `Profile.iter()` terminates and yields exactly
`Profile.len()` pairwise-distinct Individuals, visiting every parameter
combination exactly once in lexicographic order over profile iteration
order with the last parameter rotating fastest: the stream equals the
lexicographic product exactly, every in-space assignment is visited, and
no fuel beyond `Profile.len` yields anything further. -/
theorem C2_exhaustive_totality (p : Profile) (hwf : p.WF) :
    (State.run p.len p.iter).length = p.len ∧
    (State.run p.len p.iter).Nodup ∧
    State.run p.len p.iter
      = (lexProduct (p.entries.map Prod.snd)).map
          (fun vs => (⟨(p.entries.map Prod.fst).zip vs⟩ : Individual)) ∧
    (∀ vs : List Value,
      List.Forall₂ (fun (e : String × Specification) v => Value.inSpace e.2 v) p.entries vs →
      (⟨(p.entries.map Prod.fst).zip vs⟩ : Individual) ∈ State.run p.len p.iter) ∧
    (∀ m, p.len ≤ m → State.run m p.iter = State.run p.len p.iter) := by
  obtain ⟨hout, hstable⟩ := run_iter p hwf
  refine ⟨?_, ?_, hout, ?_, hstable⟩
  · rw [hout, List.length_map, lexProduct_length, profile_len_eq_prod]
  · rw [hout]
    refine List.Nodup.map_on ?_ (lexProduct_nodup _)
    intro vs1 h1 vs2 h2 heq
    have hl1 := length_of_mem_lexProduct h1
    have hl2 := length_of_mem_lexProduct h2
    have hz : (p.entries.map Prod.fst).zip vs1 = (p.entries.map Prod.fst).zip vs2 := by
      simpa using heq
    have e1 : List.map Prod.snd ((p.entries.map Prod.fst).zip vs1) = vs1 :=
      List.map_snd_zip _ _ (by simp [hl1])
    have e2 : List.map Prod.snd ((p.entries.map Prod.fst).zip vs2) = vs2 :=
      List.map_snd_zip _ _ (by simp [hl2])
    rw [← e1, ← e2, hz]
  · intro vs hvs
    rw [hout]
    exact List.mem_map.mpr ⟨vs, mem_lexProduct.mpr (forall2_inSpace_mem hwf hvs), rfl⟩

theorem C2_exhaustive_totality_witness :
    (Profile.WF ⟨[("A", .integer none (.sequence 0 1)), ("B", .switch)]⟩) ∧
    (State.run (Profile.len ⟨[("A", .integer none (.sequence 0 1)), ("B", .switch)]⟩)
        (Profile.iter ⟨[("A", .integer none (.sequence 0 1)), ("B", .switch)]⟩)).length
      = Profile.len ⟨[("A", .integer none (.sequence 0 1)), ("B", .switch)]⟩ :=
  ⟨by decide, (C2_exhaustive_totality _ (by decide)).1⟩

/-! ## Ranking claims -/

/-- **C1** (code_bug). The claim says `best()` returns the single best
element seen by the quality direction. The code's `best()` is
`self.heap.iter().min()`, the minimum by the fitness-only `Ord` of
`ExecutionResult`, with no direction correction: under `Maximize` with
capacity 2 and stream `[(#0, 1.0), (#1, 2.0)]` both elements are retained
(top-K is correct here), yet `best()` returns the element with fitness 1
— the worst retained — while the best seen is fitness 2. -/
theorem C1_ranking_best_ignores_direction :
    (((Ranking.new .maximize 2).push 0 (F.fin 1)).push 1 (F.fin 2)).heap.toListIter.length = 2 ∧
    (⟨1, F.fin 2⟩ : ExecutionResult)
      ∈ (((Ranking.new .maximize 2).push 0 (F.fin 1)).push 1 (F.fin 2)).heap.toListIter ∧
    (((Ranking.new .maximize 2).push 0 (F.fin 1)).push 1 (F.fin 2)).best
      = some ⟨0, F.fin 1⟩ ∧
    (((Ranking.new .maximize 2).push 0 (F.fin 1)).push 1 (F.fin 2)).best
      ≠ some ⟨1, F.fin 2⟩ ∧
    F.le (F.fin 1) (F.fin 2) = true ∧ F.fin 1 ≠ F.fin 2 := by
  decide

/-- **C5** (code_bug). The claim says the results document lists the
retained logs best first by the configured direction. `into_json` collects
`heap.into_iter()` — the backing vector in heap-shape order, not sorted
order — and merely reverses it: under `Minimize` (max-heap) with capacity
3 and pushes of fitnesses 1, 2, 3 the emitted fitness order is
`[2, 1, 3]`, not the best-first `[1, 2, 3]`. The first conjunct reproduces
the repository's own `test_ranking` input (pushes 1, 2, 3, 0.5, 4,
capacity 3), on which the reversed vector happens to coincide with sorted
order — the test passes by coincidence, validating this heap model while
leaving the general ordering broken. -/
theorem C5_results_not_sorted :
    ((((((Ranking.new .minimize 3).push 0 (F.fin 1)).push 1 (F.fin 2)).push 2
          (F.fin 3)).push 3 (F.fin (Rat.divInt 1 2))).push 4 (F.fin 4)).intoJsonOrder.map
        ExecutionResult.fitness
      = [F.fin (Rat.divInt 1 2), F.fin 1, F.fin 2] ∧
    ((((Ranking.new .minimize 3).push 0 (F.fin 1)).push 1 (F.fin 2)).push 2
          (F.fin 3)).intoJsonOrder.map ExecutionResult.fitness
      = [F.fin 2, F.fin 1, F.fin 3] ∧
    ((((Ranking.new .minimize 3).push 0 (F.fin 1)).push 1 (F.fin 2)).push 2
          (F.fin 3)).intoJsonOrder.map ExecutionResult.fitness
      ≠ [F.fin 1, F.fin 2, F.fin 3] := by
  decide

/-! ## Crossover domain -/

theorem tmod_two_bounds (n : ℤ) : -1 ≤ n.tmod 2 ∧ n.tmod 2 ≤ 1 := by
  rcases le_or_lt 0 n with h | h
  · have h1 := Int.tmod_nonneg (a := n) 2 h
    have h2 := Int.tmod_lt_of_pos n (b := 2) (by norm_num)
    omega
  · have hneg : (-n).tmod 2 = -(n.tmod 2) := by
      have h1 := Int.tdiv_add_tmod n 2
      have h2 := Int.tdiv_add_tmod (-n) 2
      have h3 := Int.neg_tdiv n 2
      omega
    have ha := Int.tmod_nonneg (a := -n) 2 (by omega)
    have hb := Int.tmod_lt_of_pos (-n) (b := 2) (by norm_num)
    omega

theorem tdiv_two_bounds {n lo hi : ℤ} (h1 : 2 * lo ≤ n) (h2 : n ≤ 2 * hi) :
    lo ≤ n.tdiv 2 ∧ n.tdiv 2 ≤ hi := by
  have hq := Int.tdiv_add_tmod n 2
  have hr := tmod_two_bounds n
  omega

theorem wrap32_eq_self {n : ℤ} (h1 : -2147483648 ≤ n) (h2 : n ≤ 2147483647) :
    wrap32 n = n := by
  rw [wrap32]
  have : (n + 2147483648) % 4294967296 = n + 2147483648 :=
    Int.emod_eq_of_lt (by omega) (by omega)
  omega

theorem crossoverVal_inSpace {s : Specification} (hwf : s.WF)
    (hnov : s.addNoOverflow) (r : ℕ) {a b : Value}
    (ha : Value.inSpace s a) (hb : Value.inSpace s b) :
    Value.inSpace s (s.crossoverVal r a b) := by
  cases s with
  | integer t sp =>
    cases sp with
    | sequence lo hi =>
      cases a with
      | integer x =>
        cases b with
        | integer y =>
          obtain ⟨hx1, hx2⟩ : lo ≤ x ∧ x ≤ hi := ha
          obtain ⟨hy1, hy2⟩ : lo ≤ y ∧ y ≤ hi := hb
          obtain ⟨hno1, hno2⟩ : -2147483648 ≤ lo + lo ∧ hi + hi ≤ 2147483647 := hnov
          show Value.inSpace _ (.integer (Int.tdiv (wrap32 (x + y)) 2))
          rw [wrap32_eq_self (by omega) (by omega)]
          exact tdiv_two_bounds (by omega) (by omega)
        | switch _ => exact absurd hb (by simp [Value.inSpace])
        | index _ => exact absurd hb (by simp [Value.inSpace])
      | switch _ => exact absurd ha (by simp [Value.inSpace])
      | index _ => exact absurd ha (by simp [Value.inSpace])
    | candidates cs =>
      cases a with
      | index i =>
        cases b with
        | index j =>
          have hlen : 0 < cs.length := by
            have : cs ≠ [] := hwf
            cases cs with
            | nil => exact absurd rfl this
            | cons _ _ => simp
          show Value.inSpace _ (if i = j then Value.index i else Value.index (r % cs.length))
          by_cases hij : i = j
          · rw [if_pos hij]; exact ha
          · rw [if_neg hij]
            exact Nat.mod_lt _ hlen
        | integer _ => exact absurd hb (by simp [Value.inSpace])
        | switch _ => exact absurd hb (by simp [Value.inSpace])
      | integer _ => exact absurd ha (by simp [Value.inSpace])
      | switch _ => exact absurd ha (by simp [Value.inSpace])
  | switch =>
    cases a with
    | switch x =>
      cases b with
      | switch y =>
        show Value.inSpace _ (if x = y then Value.switch x else Value.switch (r % 2 = 1))
        by_cases hxy : x = y
        · rw [if_pos hxy]; trivial
        · rw [if_neg hxy]; trivial
      | integer _ => exact absurd hb (by simp [Value.inSpace])
      | index _ => exact absurd hb (by simp [Value.inSpace])
    | integer _ => exact absurd ha (by simp [Value.inSpace])
    | index _ => exact absurd ha (by simp [Value.inSpace])
  | keyword ks =>
    cases a with
    | index i =>
      cases b with
      | index j =>
        have hlen : 0 < ks.length := by
          have : ks ≠ [] := hwf
          cases ks with
          | nil => exact absurd rfl this
          | cons _ _ => simp
        show Value.inSpace _ (if i = j then Value.index i else Value.index (r % ks.length))
        by_cases hij : i = j
        · rw [if_pos hij]; exact ha
        · rw [if_neg hij]
          exact Nat.mod_lt _ hlen
      | integer _ => exact absurd hb (by simp [Value.inSpace])
      | switch _ => exact absurd hb (by simp [Value.inSpace])
    | integer _ => exact absurd ha (by simp [Value.inSpace])
    | switch _ => exact absurd ha (by simp [Value.inSpace])

/-- **C7** counterexample. As stated — `(a+b)/2` computed in `i32`
arithmetic always lies in `[lo, hi]` — the claim is false: over the space
`Sequence(2^30, 2^31 - 1)` with both parents `2^31 - 1` (in space), the
wrapping addition overflows to `-2` and the child is `-1`, outside the
space. -/
theorem C7_crossover_overflow_counterexample :
    Value.inSpace (.integer none (.sequence 1073741824 2147483647))
      (.integer 2147483647) ∧
    (Specification.integer none (.sequence 1073741824 2147483647)).crossoverVal 0
        (.integer 2147483647) (.integer 2147483647)
      = .integer (-1) ∧
    ¬ Value.inSpace (.integer none (.sequence 1073741824 2147483647))
        (.integer (-1)) := by
  refine ⟨by decide, ?_, by decide⟩
  show Value.integer (Int.tdiv (wrap32 (2147483647 + 2147483647)) 2) = Value.integer (-1)
  norm_num [wrap32]

/-- **C7** (corrected). For any two Individuals over the same profile whose
every Value lies in its Specification's space, and whose Integer
`Sequence` spaces additionally cannot overflow the `i32` sum of two
in-range values (`-2^31 ≤ lo+lo` and `hi+hi ≤ 2^31-1`), `crossover(a,b)`
yields an Individual whose every Value is in its Specification's space;
for an Integer `Sequence` parameter the child `(a+b)/2` lies in
`[lo, hi]`. -/
theorem C7_crossover_domain (specs : List Specification) (rs : List ℕ)
    (av bv : List Value)
    (hwf : ∀ s ∈ specs, s.WF)
    (hnov : ∀ s ∈ specs, s.addNoOverflow)
    (hrs : rs.length = specs.length)
    (ha : List.Forall₂ (fun s v => Value.inSpace s v) specs av)
    (hb : List.Forall₂ (fun s v => Value.inSpace s v) specs bv) :
    List.Forall₂ (fun s v => Value.inSpace s v) specs (crossoverValues specs rs av bv) := by
  induction specs generalizing rs av bv with
  | nil =>
    cases ha
    exact List.Forall₂.nil
  | cons s ss ih =>
    cases ha with
    | cons hsa hta =>
      cases hb with
      | cons hsb htb =>
        cases rs with
        | nil => simp at hrs
        | cons r rs' =>
          refine List.Forall₂.cons
            (crossoverVal_inSpace (hwf s (List.mem_cons_self _ _))
              (hnov s (List.mem_cons_self _ _)) r hsa hsb) ?_
          exact ih rs' _ _ (fun x hx => hwf x (List.mem_cons_of_mem _ hx))
            (fun x hx => hnov x (List.mem_cons_of_mem _ hx))
            (by simpa using hrs) hta htb

theorem C7_crossover_domain_witness :
    List.Forall₂ (fun s v => Value.inSpace s v)
      [Specification.integer none (.sequence 0 10), Specification.switch]
      (crossoverValues [Specification.integer none (.sequence 0 10), Specification.switch]
        [0, 1] [.integer 3, .switch false] [.integer 5, .switch true]) :=
  C7_crossover_domain _ _ _ _ (by decide) (by decide) (by decide)
    (List.Forall₂.cons (by decide) (List.Forall₂.cons (by decide) List.Forall₂.nil))
    (List.Forall₂.cons (by decide) (List.Forall₂.cons (by decide) List.Forall₂.nil))

/-! ## Stochastic universal sampling claims -/

/-- **C3** counterexample. The claim quantifies over every admissible
random starting offset in `[0, step)`; offset exactly `0` is admissible
(`rand::random::<f64>()` can return `0.0`), and there the `current_index == 0`
branch of the source selects `roulette[0].1`: on the first test vector the
selection is `[0, 0, 1, 2]` (multiset `≠ {0,1,2,3}`), and on the third
test vector index `0` is selected first (not every selection is `1`). -/
theorem C3_sus_zero_offset_counterexample :
    ((0:ℚ) ≤ 0 ∧ (0:ℚ) < 1) ∧
    sus [(1,0),(1,1),(1,2),(1,3)] 4 0 = [0, 0, 1, 2] ∧
    ¬ ((sus [(1,0),(1,1),(1,2),(1,3)] 4 0 : Multiset ℕ) = ({0,1,2,3} : Multiset ℕ)) ∧
    sus [(0,0),(10,1)] 5 0 = [0, 1, 1, 1, 1] ∧
    ¬ (∀ x ∈ sus [(0,0),(10,1)] 5 0, x = 1) := by
  have hv1 : sus [(1,0),(1,1),(1,2),(1,3)] 4 0 = [0, 0, 1, 2] := by
    have e0 : susWhile [((1:ℚ),(0:ℕ)),(1,1),(1,2),(1,3)] 0 4 0 0 = (0, 0) := by
      norm_num [susWhile]
    have e1 : susWhile [((1:ℚ),(0:ℕ)),(1,1),(1,2),(1,3)] 1 4 0 0 = (1, 1) := by
      norm_num [-Prod.mk_zero_zero, -Prod.mk_one_one, susWhile, List.getD]
    have e2 : susWhile [((1:ℚ),(0:ℕ)),(1,1),(1,2),(1,3)] 2 4 1 1 = (2, 2) := by
      norm_num [-Prod.mk_zero_zero, -Prod.mk_one_one, susWhile, List.getD]
    have e3 : susWhile [((1:ℚ),(0:ℕ)),(1,1),(1,2),(1,3)] 3 4 2 2 = (3, 3) := by
      norm_num [-Prod.mk_zero_zero, -Prod.mk_one_one, susWhile, List.getD]
    norm_num [-Prod.mk_zero_zero, -Prod.mk_one_one, sus, susLoop, e0, e1, e2, e3,
      List.getD]
  have hv3 : sus [(0,0),(10,1)] 5 0 = [0, 1, 1, 1, 1] := by
    have e0 : susWhile [((0:ℚ),(0:ℕ)),(10,1)] 0 2 0 0 = (0, 0) := by
      norm_num [susWhile]
    have e1 : susWhile [((0:ℚ),(0:ℕ)),(10,1)] 2 2 0 0 = (2, 10) := by
      norm_num [-Prod.mk_zero_zero, -Prod.mk_one_one, susWhile, List.getD]
    have e2 : susWhile [((0:ℚ),(0:ℕ)),(10,1)] 4 2 2 10 = (2, 10) := by
      norm_num [susWhile]
    have e3 : susWhile [((0:ℚ),(0:ℕ)),(10,1)] 6 2 2 10 = (2, 10) := by
      norm_num [susWhile]
    have e4 : susWhile [((0:ℚ),(0:ℕ)),(10,1)] 8 2 2 10 = (2, 10) := by
      norm_num [susWhile]
    norm_num [-Prod.mk_zero_zero, -Prod.mk_one_one, sus, susLoop, e0, e1, e2, e3, e4,
      List.getD]
  refine ⟨⟨le_refl _, by norm_num⟩, hv1, ?_, hv3, ?_⟩
  · rw [hv1]; decide
  · rw [hv3]; decide

/-- **C3** (corrected). Idealizing the `f64` pointer arithmetic as exact
rational arithmetic: the first and third test vectors hold for every
starting offset in the open interval `(0, step)` — equivalently every
random draw `r ∈ (0, 1)` — and the second test vector holds for every
offset in `[0, step)`: on roulette `[(1,0),(1,1),(1,2),(1,3)]` with `n=4`
the selection is exactly `[0,1,2,3]` (multiset `{0,1,2,3}`); on
`[(10,0),(0,1)]` with `n=5` every selected index is `0`; on
`[(0,0),(10,1)]` with `n=5` every selected index is `1`. -/
theorem C3_sus_test_vectors (r r' : ℚ) (h0 : 0 < r) (h1 : r < 1)
    (h0' : 0 ≤ r') (h1' : r' < 1) :
    sus [(1,0),(1,1),(1,2),(1,3)] 4 r = [0, 1, 2, 3] ∧
    (sus [(1,0),(1,1),(1,2),(1,3)] 4 r : Multiset ℕ) = ({0,1,2,3} : Multiset ℕ) ∧
    (∀ x ∈ sus [(10,0),(0,1)] 5 r', x = 0) ∧
    (∀ x ∈ sus [(0,0),(10,1)] 5 r, x = 1) := by
  have hv1 : sus [(1,0),(1,1),(1,2),(1,3)] 4 r = [0, 1, 2, 3] := by
    have w0 : susWhile [((1:ℚ),(0:ℕ)),(1,1),(1,2),(1,3)] r 4 0 0 = (1, 1) := by
      rw [susWhile, if_pos ⟨by norm_num, h0⟩]
      norm_num [-Prod.mk_zero_zero, -Prod.mk_one_one, List.getD]
      rw [susWhile, if_neg (by push_neg; intro _; linarith)]
    have w1 : susWhile [((1:ℚ),(0:ℕ)),(1,1),(1,2),(1,3)] (r + 1) 4 1 1 = (2, 2) := by
      rw [susWhile, if_pos ⟨by norm_num, by linarith⟩]
      norm_num [-Prod.mk_zero_zero, -Prod.mk_one_one, List.getD]
      rw [susWhile, if_neg (by push_neg; intro _; linarith)]
    have w2 : susWhile [((1:ℚ),(0:ℕ)),(1,1),(1,2),(1,3)] (r + 2) 4 2 2 = (3, 3) := by
      rw [susWhile, if_pos ⟨by norm_num, by linarith⟩]
      norm_num [-Prod.mk_zero_zero, -Prod.mk_one_one, List.getD]
      rw [susWhile, if_neg (by push_neg; intro _; linarith)]
    have w3 : susWhile [((1:ℚ),(0:ℕ)),(1,1),(1,2),(1,3)] (r + 3) 4 3 3 = (4, 4) := by
      rw [susWhile, if_pos ⟨by norm_num, by linarith⟩]
      norm_num [-Prod.mk_zero_zero, -Prod.mk_one_one, List.getD]
      rw [susWhile, if_neg (by norm_num)]
    norm_num [-Prod.mk_zero_zero, -Prod.mk_one_one, sus, susLoop, w0, w1, w2, w3,
      List.getD]
  have hv2 : ∀ x ∈ sus [(10,0),(0,1)] 5 r', x = 0 := by
    rcases eq_or_lt_of_le h0' with heq | hpos
    · rw [← heq]
      have e0 : susWhile [((10:ℚ),(0:ℕ)),(0,1)] 0 2 0 0 = (0, 0) := by
        norm_num [susWhile]
      have e1 : susWhile [((10:ℚ),(0:ℕ)),(0,1)] 2 2 0 0 = (1, 10) := by
        norm_num [-Prod.mk_zero_zero, -Prod.mk_one_one, susWhile, List.getD]
      have e2 : susWhile [((10:ℚ),(0:ℕ)),(0,1)] 4 2 1 10 = (1, 10) := by
        norm_num [susWhile]
      have e3 : susWhile [((10:ℚ),(0:ℕ)),(0,1)] 6 2 1 10 = (1, 10) := by
        norm_num [susWhile]
      have e4 : susWhile [((10:ℚ),(0:ℕ)),(0,1)] 8 2 1 10 = (1, 10) := by
        norm_num [susWhile]
      norm_num [-Prod.mk_zero_zero, -Prod.mk_one_one, sus, susLoop, e0, e1, e2, e3, e4,
        List.getD]
    · have w0 : susWhile [((10:ℚ),(0:ℕ)),(0,1)] (r' * 2) 2 0 0 = (1, 10) := by
        rw [susWhile, if_pos ⟨by norm_num, by linarith⟩]
        norm_num [-Prod.mk_zero_zero, -Prod.mk_one_one, List.getD]
        rw [susWhile, if_neg (by push_neg; intro _; linarith)]
      have w1 : susWhile [((10:ℚ),(0:ℕ)),(0,1)] (r' * 2 + 2) 2 1 10 = (1, 10) := by
        rw [susWhile, if_neg (by push_neg; intro _; linarith)]
      have w2 : susWhile [((10:ℚ),(0:ℕ)),(0,1)] (r' * 2 + 4) 2 1 10 = (1, 10) := by
        rw [susWhile, if_neg (by push_neg; intro _; linarith)]
      have w3 : susWhile [((10:ℚ),(0:ℕ)),(0,1)] (r' * 2 + 6) 2 1 10 = (1, 10) := by
        rw [susWhile, if_neg (by push_neg; intro _; linarith)]
      have w4 : susWhile [((10:ℚ),(0:ℕ)),(0,1)] (r' * 2 + 8) 2 1 10 = (1, 10) := by
        rw [susWhile, if_neg (by push_neg; intro _; linarith)]
      norm_num [-Prod.mk_zero_zero, -Prod.mk_one_one, sus, susLoop, w0, w1, w2, w3, w4,
        List.getD]
  have hv3 : ∀ x ∈ sus [(0,0),(10,1)] 5 r, x = 1 := by
    have w0 : susWhile [((0:ℚ),(0:ℕ)),(10,1)] (r * 2) 2 0 0 = (2, 10) := by
      rw [susWhile, if_pos ⟨by norm_num, by linarith⟩]
      norm_num [-Prod.mk_zero_zero, -Prod.mk_one_one, List.getD]
      rw [susWhile, if_pos ⟨by norm_num, by linarith⟩]
      norm_num [-Prod.mk_zero_zero, -Prod.mk_one_one, List.getD]
      rfl
    have w1 : susWhile [((0:ℚ),(0:ℕ)),(10,1)] (r * 2 + 2) 2 2 10 = (2, 10) := by
      rw [susWhile, if_neg (by norm_num)]
    have w2 : susWhile [((0:ℚ),(0:ℕ)),(10,1)] (r * 2 + 4) 2 2 10 = (2, 10) := by
      rw [susWhile, if_neg (by norm_num)]
    have w3 : susWhile [((0:ℚ),(0:ℕ)),(10,1)] (r * 2 + 6) 2 2 10 = (2, 10) := by
      rw [susWhile, if_neg (by norm_num)]
    have w4 : susWhile [((0:ℚ),(0:ℕ)),(10,1)] (r * 2 + 8) 2 2 10 = (2, 10) := by
      rw [susWhile, if_neg (by norm_num)]
    norm_num [-Prod.mk_zero_zero, -Prod.mk_one_one, sus, susLoop, w0, w1, w2, w3, w4,
      List.getD]
  exact ⟨hv1, by rw [hv1]; rfl, hv2, hv3⟩

theorem C3_sus_test_vectors_witness :
    sus [(1,0),(1,1),(1,2),(1,3)] 4 (Rat.divInt 1 2) = [0, 1, 2, 3] :=
  (C3_sus_test_vectors (Rat.divInt 1 2) 0 (by decide) (by decide) (by decide)
    (by decide)).1

/-! ## Evaluation pipeline claims -/

theorem applyHookCall_result (call : HookCall) (c : EvalContext) :
    (applyHookCall call c).result = c.result ∨
    (applyHookCall call c).result = .invalid := by
  cases call <;> simp [applyHookCall]

theorem applyHookCall_preserves_invalid (call : HookCall) {c : EvalContext}
    (h : c.result = .invalid) : (applyHookCall call c).result = .invalid := by
  cases call <;> simp [applyHookCall, h]

theorem runHook_result (calls : List HookCall) (c : EvalContext) :
    (runHook calls c).result = c.result ∨ (runHook calls c).result = .invalid := by
  induction calls generalizing c with
  | nil => exact Or.inl rfl
  | cons call rest ih =>
    have hstep : runHook (call :: rest) c = runHook rest (applyHookCall call c) := rfl
    rw [hstep]
    rcases ih (applyHookCall call c) with h1 | h1
    · rcases applyHookCall_result call c with h2 | h2
      · exact Or.inl (h1.trans h2)
      · exact Or.inr (h1.trans h2)
    · exact Or.inr h1

theorem runHook_preserves_invalid (calls : List HookCall) {c : EvalContext}
    (h : c.result = .invalid) : (runHook calls c).result = .invalid := by
  induction calls generalizing c with
  | nil => exact h
  | cons call rest ih =>
    have hstep : runHook (call :: rest) c = runHook rest (applyHookCall call c) := rfl
    rw [hstep]
    exact ih (applyHookCall_preserves_invalid call h)

theorem runHook_invalid_of_mem {calls : List HookCall}
    (h : HookCall.invalidate ∈ calls) (c : EvalContext) :
    (runHook calls c).result = .invalid := by
  induction calls generalizing c with
  | nil => simp at h
  | cons call rest ih =>
    have hstep : runHook (call :: rest) c = runHook rest (applyHookCall call c) := rfl
    rw [hstep]
    rcases List.mem_cons.mp h with rfl | hmem
    · exact runHook_preserves_invalid rest rfl
    · exact ih hmem _

theorem foldHooks_result (hooks : List (List HookCall)) (c : EvalContext) :
    (hooks.foldl (fun c h => runHook h c) c).result = c.result ∨
    (hooks.foldl (fun c h => runHook h c) c).result = .invalid := by
  induction hooks generalizing c with
  | nil => exact Or.inl rfl
  | cons hk rest ih =>
    rw [List.foldl_cons]
    rcases ih (runHook hk c) with h1 | h1
    · rcases runHook_result hk c with h2 | h2
      · exact Or.inl (h1.trans h2)
      · exact Or.inr (h1.trans h2)
    · exact Or.inr h1

theorem foldHooks_preserves_invalid (hooks : List (List HookCall)) {c : EvalContext}
    (h : c.result = .invalid) :
    (hooks.foldl (fun c h => runHook h c) c).result = .invalid := by
  induction hooks generalizing c with
  | nil => exact h
  | cons hk rest ih =>
    rw [List.foldl_cons]
    exact ih (runHook_preserves_invalid hk h)

theorem foldHooks_invalid (hooks : List (List HookCall)) (c : EvalContext)
    (h : ∃ hk ∈ hooks, HookCall.invalidate ∈ hk) :
    (hooks.foldl (fun c h => runHook h c) c).result = .invalid := by
  induction hooks generalizing c with
  | nil => simp at h
  | cons hk rest ih =>
    rw [List.foldl_cons]
    obtain ⟨hk', hmem, hinv⟩ := h
    rcases List.mem_cons.mp hmem with rfl | hmem'
    · exact foldHooks_preserves_invalid rest (runHook_invalid_of_mem hinv c)
    · exact ih _ ⟨hk', hmem', hinv⟩

/-- **C4** (confirmed). If any configured pre-hook sets the Context Result
to Invalid, `evaluate(individual, repetitions)` returns the criterion's
Invalid sentinel — `+∞` for Minimum and Median, `-∞` for Maximum —
without invoking the compile driver and without invoking the runner. -/
theorem C4_prehook_invalid_sentinel (criterion : Criterion)
    (preHooks postHooks : List (List HookCall)) (cached compileOk : Bool)
    (runnerCalls : ℕ → List RunnerCall) (repetition : ℕ)
    (h : ∃ hk ∈ preHooks, HookCall.invalidate ∈ hk) :
    evaluate criterion preHooks postHooks cached compileOk runnerCalls repetition
      = { result := some (.val criterion.invalid), compiled := false,
          runnerInvocations := 0, fitnesses := [] } ∧
    Criterion.invalid .minimum = F.inf ∧
    Criterion.invalid .median = F.inf ∧
    Criterion.invalid .maximum = F.negInf := by
  refine ⟨?_, rfl, rfl, rfl⟩
  have hc1 := foldHooks_invalid preHooks { arguments := [], result := .unknown } h
  rw [evaluate]
  rw [if_pos hc1]

theorem C4_prehook_invalid_sentinel_witness :
    evaluate .minimum [[HookCall.invalidate]] [] true true (fun _ => []) 1
      = { result := some (.val F.inf), compiled := false,
          runnerInvocations := 0, fitnesses := [] } :=
  (C4_prehook_invalid_sentinel .minimum [[HookCall.invalidate]] [] true true
    (fun _ => []) 1 ⟨[HookCall.invalidate], by decide, by decide⟩).1

/-- **C10** (confirmed). The dispatch table reachable from hook code has
no entry that sets the Context Result to Valid (every hook call leaves
the Result unchanged or sets it to Invalid); consequently, after
`evaluate` stores `Valid(representative(fitnesses))`, the post-hooks can
only keep it or invalidate it, so whenever `evaluate` returns a value it
is either the aggregated representative of the collected fitnesses or the
criterion's Invalid sentinel — never any other hook-supplied value. -/
theorem C10_result_representative_or_sentinel (criterion : Criterion)
    (preHooks postHooks : List (List HookCall)) (cached compileOk : Bool)
    (runnerCalls : ℕ → List RunnerCall) (repetition : ℕ) :
    (∀ (call : HookCall) (c : EvalContext),
      (applyHookCall call c).result = c.result ∨
      (applyHookCall call c).result = .invalid) ∧
    ∀ f : F64,
      (evaluate criterion preHooks postHooks cached compileOk runnerCalls
          repetition).result = some f →
      f = .val criterion.invalid ∨
      ∃ rep,
        criterion.representative
            (evaluate criterion preHooks postHooks cached compileOk runnerCalls
              repetition).fitnesses = some rep ∧
        f = .val rep := by
  refine ⟨applyHookCall_result, ?_⟩
  intro f hf
  rw [evaluate] at hf ⊢
  by_cases hinv :
      (preHooks.foldl (fun c h => runHook h c)
        { arguments := [], result := .unknown }).result = .invalid
  · rw [if_pos hinv] at hf
    simp only [Option.some_injective] at hf
    left
    have : some (F64.val criterion.invalid) = some f := hf
    exact (Option.some_injective _ this).symm
  · rw [if_neg hinv] at hf ⊢
    by_cases hcc : cached = false ∧ compileOk = false
    · rw [if_pos hcc] at hf
      simp at hf
    · rw [if_neg hcc] at hf ⊢
      rcases hreps :
          runRepetitions runnerCalls criterion repetition 0
            (preHooks.foldl (fun c h => runHook h c)
              { arguments := [], result := .unknown }) [] with ⟨count, _ | ⟨c2, fits⟩⟩
      · rw [hreps] at hf
        simp at hf
      · rw [hreps] at hf
        simp only [hreps]
        rcases hrep : criterion.representative fits with _ | rep
        · simp only [hrep] at hf
          simp at hf
        · simp only [hrep] at hf ⊢
          rcases foldHooks_result postHooks { c2 with result := .valid (.val rep) }
            with heq | hinv2
          · simp only [heq] at hf
            simp only [CtxResult.unwrap] at hf
            right
            have hfv : F64.val rep = f := by simpa using hf
            exact ⟨rep, by simp, hfv.symm⟩
          · simp only [hinv2] at hf
            simp only [CtxResult.unwrap] at hf
            left
            have hfv : F64.val criterion.invalid = f := by simpa using hf
            exact hfv.symm

theorem C10_result_representative_or_sentinel_witness :
    F64.val (F.fin 5) = .val (Criterion.invalid .minimum) ∨
    ∃ rep,
      Criterion.representative .minimum
          (evaluate .minimum [] [] true true
            (fun _ => [RunnerCall.result (.val (F.fin 5))]) 1).fitnesses = some rep ∧
      F64.val (F.fin 5) = .val rep :=
  (C10_result_representative_or_sentinel .minimum [] [] true true
    (fun _ => [RunnerCall.result (.val (F.fin 5))]) 1).2 (.val (F.fin 5)) (by decide)

/-! ## Compile driver claim -/

/-- **C6** (code_bug). The command arguments, the `Spawn` error paths and
the success path are as claimed, but the stderr clause is not: `compile`
never configures `Stdio::piped()` for the child's stderr, so
`Child::stderr` is `None` and the error is always `Compilation(None)` —
even when the compiler wrote perfectly readable diagnostics. The claim
(and the dead buffer-reading code in the source) say `Compilation(Some(stderr))`. -/
theorem C6_compile_stderr_never_captured :
    (∀ (output : String) (arguments : List String),
      compileCommandArgs output arguments = "-shared" :: "-o" :: output :: arguments) ∧
    (∀ env : ProcessEnv, env.spawnFails = true → compileRun env = .error .spawn) ∧
    (∀ env : ProcessEnv, env.spawnFails = false → env.waitFails = true →
      compileRun env = .error .spawn) ∧
    (∀ env : ProcessEnv, env.spawnFails = false → env.waitFails = false →
      env.exitSuccess = true → compileRun env = .ok ()) ∧
    (∀ env : ProcessEnv, env.spawnFails = false → env.waitFails = false →
      env.exitSuccess = false → compileRun env = .error (.compilation none)) ∧
    compileRun
        { spawnFails := false, waitFails := false, exitSuccess := false,
          stderrReadable := some "diagnostics" }
      = .error (.compilation none) ∧
    (Except.error (.compilation none) : Except CompileError Unit)
      ≠ .error (.compilation (some "diagnostics")) := by
  refine ⟨fun _ _ => rfl, ?_, ?_, ?_, ?_, rfl, by simp⟩
  · intro env h
    simp [compileRun, h]
  · intro env h1 h2
    simp [compileRun, h1, h2]
  · intro env h1 h2 h3
    simp [compileRun, h1, h2, h3]
  · intro env h1 h2 h3
    simp [compileRun, compileStderrPiped, h1, h2, h3]

theorem C6_compile_stderr_never_captured_witness :
    compileRun
        { spawnFails := true, waitFails := false, exitSuccess := false,
          stderrReadable := none }
      = .error .spawn :=
  C6_compile_stderr_never_captured.2.1
    { spawnFails := true, waitFails := false, exitSuccess := false,
      stderrReadable := none } rfl

/-! ## Dispatch table claims -/

/-- **C9** counterexample. There is no single id table shared by helper,
hook and runner: the runner's `get` resolves `0x00` to its workspace
`get_ptr` (not `context_get_working_directory`) and `0x30` to null (not
`runner_result`, which it exposes at `0x10`); the helper's `get` resolves
`0x00` to `workspace_set_ptr`; the hook table has no `runner_result` at
`0x30` at all. -/
theorem C9_single_table_counterexample :
    runnerGet 0x00 = .runnerGetPtr ∧
    runnerGet 0x00 ≠ .contextGetWorkingDirectory ∧
    runnerGet 0x30 = .null ∧
    runnerGet 0x30 ≠ .runnerResult ∧
    runnerGet 0x10 = .runnerResult ∧
    helperGet 0x00 = .helperWorkspaceSetPtr ∧
    helperGet 0x00 ≠ .contextGetWorkingDirectory ∧
    hookGet 0x30 = .null ∧
    hookGet 0x30 ≠ .runnerResult := by
  decide

/-- **C9** (corrected). Each consumer kind has its own id table, preserved
bit-exact: the hook table maps 0x00–0x02 to the context functions,
0x10–0x12 to the parameter getters and 0x20 to the workspace getter; the
runner table maps 0x00 to its workspace `get_ptr` and 0x10 to
`runner_result`; the helper table maps 0x00 to `workspace_set_ptr` and
0x10 to `workspace_get_ptr`; every id outside the respective table
resolves to null. -/
theorem C9_dispatch_tables :
    (hookGet 0x00 = .contextGetWorkingDirectory ∧
     hookGet 0x01 = .contextInvalidate ∧
     hookGet 0x02 = .contextAppendArgument ∧
     hookGet 0x10 = .parameterGetInteger ∧
     hookGet 0x11 = .parameterGetSwitch ∧
     hookGet 0x12 = .parameterGetKeyword ∧
     hookGet 0x20 = .hookWorkspaceGetPtr) ∧
    (runnerGet 0x00 = .runnerGetPtr ∧ runnerGet 0x10 = .runnerResult) ∧
    (helperGet 0x00 = .helperWorkspaceSetPtr ∧
     helperGet 0x10 = .helperWorkspaceGetPtr) ∧
    (∀ id : ℤ, id ∉ ([0x00, 0x01, 0x02, 0x10, 0x11, 0x12, 0x20] : List ℤ) →
      hookGet id = .null) ∧
    (∀ id : ℤ, id ∉ ([0x00, 0x10] : List ℤ) → runnerGet id = .null) ∧
    (∀ id : ℤ, id ∉ ([0x00, 0x10] : List ℤ) → helperGet id = .null) := by
  refine ⟨by decide, by decide, by decide, ?_, ?_, ?_⟩
  · intro id h
    simp only [List.mem_cons, List.mem_singleton, not_or] at h
    obtain ⟨h0, h1, h2, h3, h4, h5, h6⟩ := h
    simp [hookGet, h0, h1, h2, h3, h4, h5, h6]
  · intro id h
    simp only [List.mem_cons, List.mem_singleton, not_or] at h
    obtain ⟨h0, h1, _⟩ := h
    simp [runnerGet, h0, h1]
  · intro id h
    simp only [List.mem_cons, List.mem_singleton, not_or] at h
    obtain ⟨h0, h1, _⟩ := h
    simp [helperGet, h0, h1]

theorem C9_dispatch_tables_witness :
    hookGet 51 = .null ∧ runnerGet 51 = .null ∧ helperGet 51 = .null :=
  ⟨C9_dispatch_tables.2.2.2.1 51 (by decide),
   C9_dispatch_tables.2.2.2.2.1 51 (by decide),
   C9_dispatch_tables.2.2.2.2.2 51 (by decide)⟩

/-! ## Checkpoint round-trip -/

theorem decodeList_encode {α : Type u} {dec : Json → Option α} {enc : α → Json}
    (h : ∀ x, dec (enc x) = some x) :
    ∀ l : List α, decodeList dec (l.map enc) = some l := by
  intro l
  induction l with
  | nil => rfl
  | cons x xs ih => rw [List.map_cons, decodeList, h x, ih]

theorem decStr_enc : ∀ s : String, decStr (.str s) = some s := fun _ => rfl

theorem decInt_enc : ∀ n : ℤ, decInt (.num n) = some n := fun _ => rfl

theorem decOptStr_enc : ∀ t, decOptStr (encOptStr t) = some t := by
  intro t
  cases t <;> rfl

theorem decValue_enc : ∀ v, decValue (encValue v) = some v := by
  intro v
  cases v with
  | integer n => rfl
  | switch b => rfl
  | index i => simp [encValue, decValue, decNat]

theorem decIntegerSpace_enc : ∀ sp, decIntegerSpace (encIntegerSpace sp) = some sp := by
  intro sp
  cases sp with
  | sequence lo hi => rfl
  | candidates cs =>
    simp [encIntegerSpace, decIntegerSpace, decodeList_encode decInt_enc]

theorem decSpecification_enc : ∀ s, decSpecification (encSpecification s) = some s := by
  intro s
  cases s with
  | integer t sp =>
    simp [encSpecification, decSpecification, Json.getField, decOptStr_enc,
      decIntegerSpace_enc]
  | switch => rfl
  | keyword ks =>
    simp [encSpecification, decSpecification, decodeList_encode decStr_enc]

theorem decState_enc : ∀ s : State, decState (encState s) = some s := by
  intro s
  simp [encState, decState, Json.getField, decJsonList, decBool,
    decodeList_encode decStr_enc, decodeList_encode decValue_enc,
    decodeList_encode decSpecification_enc]

theorem decPair_enc :
    ∀ nv : String × Value, decPair (.arr [.str nv.1, encValue nv.2]) = some nv := by
  intro nv
  simp [decPair, decStr, decValue_enc]

theorem decIndividual_enc : ∀ ind, decIndividual (encIndividual ind) = some ind := by
  intro ind
  have h : ∀ nv : String × Value,
      decPair ((fun nv : String × Value => Json.arr [.str nv.1, encValue nv.2]) nv)
        = some nv := decPair_enc
  simp [encIndividual, decIndividual, decodeList_encode h]

theorem decGState_enc : ∀ g : GState, decGState (encGState g) = some g := by
  intro g
  simp [encGState, decGState, Json.getField, decJsonList, decNat,
    decodeList_encode decIndividual_enc]

theorem decCheckpoint_enc : ∀ c, decCheckpoint (encCheckpoint c) = some c := by
  intro c
  cases c with
  | exhaustive s => simp [encCheckpoint, decCheckpoint, decState_enc]
  | genetic g => simp [encCheckpoint, decCheckpoint, decGState_enc]

/-- **C8** (confirmed). For every prefix length `k ≤ |iter|` of the
exhaustive enumeration (under the non-empty-spaces precondition), the
Checkpoint serialization of the iterator State after `k` steps
round-trips through serialization, and continuing iteration from the
(deserialized) state yields exactly the remaining `|iter| − k`
Individuals in the same order as the uninterrupted enumeration. -/
theorem C8_exhaustive_resumability (p : Profile) (hwf : p.WF) (k : ℕ)
    (hk : k ≤ p.len) :
    decCheckpoint (encCheckpoint (.exhaustive (State.advance k p.iter)))
      = some (.exhaustive (State.advance k p.iter)) ∧
    State.run (p.len - k) (State.advance k p.iter)
      = (State.run p.len p.iter).drop k ∧
    (State.run (p.len - k) (State.advance k p.iter)).length = p.len - k := by
  have hadd := run_add k (p.len - k) p.iter
  rw [show k + (p.len - k) = p.len by omega] at hadd
  have hlen : (State.run p.len p.iter).length = p.len := by
    obtain ⟨hout, _⟩ := run_iter p hwf
    rw [hout, List.length_map, lexProduct_length, profile_len_eq_prod]
  have hklen : (State.run k p.iter).length = k := by
    rw [run_take p.len k hk p.iter, List.length_take, hlen]
    omega
  have hdrop : (State.run p.len p.iter).drop k
      = State.run (p.len - k) (State.advance k p.iter) := by
    rw [hadd, List.drop_left' hklen]
  refine ⟨decCheckpoint_enc _, hdrop.symm, ?_⟩
  have := congrArg List.length hadd
  rw [hlen, List.length_append, hklen] at this
  omega

theorem C8_exhaustive_resumability_witness :
    decCheckpoint
        (encCheckpoint (.exhaustive
          (State.advance 1 (Profile.iter
            ⟨[("A", .integer none (.sequence 0 1)), ("B", .switch)]⟩))))
      = some (.exhaustive
          (State.advance 1 (Profile.iter
            ⟨[("A", .integer none (.sequence 0 1)), ("B", .switch)]⟩))) :=
  (C8_exhaustive_resumability ⟨[("A", .integer none (.sequence 0 1)), ("B", .switch)]⟩
    (by decide) 1 (by decide)).1

end Autotuner
